import Mathlib

/-!
Verification of the yaml-fuse projection engine.

This file gives a shallow embedding of the yaml-fuse filesystem core
(`yaml-fuse.py`): the document tree, the serializer (`yaml.dump` with
`BlockStyleDumper`), a conservative model of `yaml.safe_load` restricted to
the block sublanguage the dumper emits, the load/save pipeline
(`_load_yaml`, `_save_yaml`, `_convert_quoted_strings`), path resolution
(`_resolve_path`, `_resolve_path_for_mkdir`) and the FUSE operation handlers
(`getattr`, `read`, `write`, `release`, `create`, `unlink`, `rmdir`,
`mkdir`).  Mutable Python state is modelled by explicit state passing over
`FSState`; fallible handlers return `Except Errno`.  Byte strings are
modelled as `String` (all contents of interest are UTF-8 text); lines of
text are modelled as `List Char`.
-/

/-- Document tree: the in-memory value produced by `yaml.safe_load` and
mutated by the filesystem operations.  Mappings are ordered association
lists with string keys (Python dicts preserve insertion order); sequences
are lists; scalars are strings, integers, booleans or null.  Floating point
scalars are outside the model. -/
inductive Val where
  | str  : String → Val
  | int  : Int → Val
  | bool : Bool → Val
  | null : Val
  | map  : List (String × Val) → Val
  | seq  : List Val → Val
deriving Repr

mutual
def valDecEq : (a b : Val) → Decidable (a = b)
  | .str a, .str b =>
      match decEq a b with
      | .isTrue h => .isTrue (by rw [h])
      | .isFalse h => .isFalse (fun hh => h (Val.str.inj hh))
  | .int a, .int b =>
      match decEq a b with
      | .isTrue h => .isTrue (by rw [h])
      | .isFalse h => .isFalse (fun hh => h (Val.int.inj hh))
  | .bool a, .bool b =>
      match decEq a b with
      | .isTrue h => .isTrue (by rw [h])
      | .isFalse h => .isFalse (fun hh => h (Val.bool.inj hh))
  | .null, .null => .isTrue rfl
  | .map a, .map b =>
      match fieldsDecEq a b with
      | .isTrue h => .isTrue (by rw [h])
      | .isFalse h => .isFalse (fun hh => h (Val.map.inj hh))
  | .seq a, .seq b =>
      match itemsDecEq a b with
      | .isTrue h => .isTrue (by rw [h])
      | .isFalse h => .isFalse (fun hh => h (Val.seq.inj hh))
  | .str _, .int _ => .isFalse (fun h => Val.noConfusion h)
  | .str _, .bool _ => .isFalse (fun h => Val.noConfusion h)
  | .str _, .null => .isFalse (fun h => Val.noConfusion h)
  | .str _, .map _ => .isFalse (fun h => Val.noConfusion h)
  | .str _, .seq _ => .isFalse (fun h => Val.noConfusion h)
  | .int _, .str _ => .isFalse (fun h => Val.noConfusion h)
  | .int _, .bool _ => .isFalse (fun h => Val.noConfusion h)
  | .int _, .null => .isFalse (fun h => Val.noConfusion h)
  | .int _, .map _ => .isFalse (fun h => Val.noConfusion h)
  | .int _, .seq _ => .isFalse (fun h => Val.noConfusion h)
  | .bool _, .str _ => .isFalse (fun h => Val.noConfusion h)
  | .bool _, .int _ => .isFalse (fun h => Val.noConfusion h)
  | .bool _, .null => .isFalse (fun h => Val.noConfusion h)
  | .bool _, .map _ => .isFalse (fun h => Val.noConfusion h)
  | .bool _, .seq _ => .isFalse (fun h => Val.noConfusion h)
  | .null, .str _ => .isFalse (fun h => Val.noConfusion h)
  | .null, .int _ => .isFalse (fun h => Val.noConfusion h)
  | .null, .bool _ => .isFalse (fun h => Val.noConfusion h)
  | .null, .map _ => .isFalse (fun h => Val.noConfusion h)
  | .null, .seq _ => .isFalse (fun h => Val.noConfusion h)
  | .map _, .str _ => .isFalse (fun h => Val.noConfusion h)
  | .map _, .int _ => .isFalse (fun h => Val.noConfusion h)
  | .map _, .bool _ => .isFalse (fun h => Val.noConfusion h)
  | .map _, .null => .isFalse (fun h => Val.noConfusion h)
  | .map _, .seq _ => .isFalse (fun h => Val.noConfusion h)
  | .seq _, .str _ => .isFalse (fun h => Val.noConfusion h)
  | .seq _, .int _ => .isFalse (fun h => Val.noConfusion h)
  | .seq _, .bool _ => .isFalse (fun h => Val.noConfusion h)
  | .seq _, .null => .isFalse (fun h => Val.noConfusion h)
  | .seq _, .map _ => .isFalse (fun h => Val.noConfusion h)
def fieldsDecEq : (a b : List (String × Val)) → Decidable (a = b)
  | [], [] => .isTrue rfl
  | [], _ :: _ => .isFalse (fun h => List.noConfusion h)
  | _ :: _, [] => .isFalse (fun h => List.noConfusion h)
  | (k, v) :: es, (k2, v2) :: es2 =>
      match decEq k k2, valDecEq v v2, fieldsDecEq es es2 with
      | .isTrue h1, .isTrue h2, .isTrue h3 => .isTrue (by rw [h1, h2, h3])
      | .isFalse h1, _, _ =>
          .isFalse (by intro hh; injection hh with hkv hes; exact h1 (congrArg Prod.fst hkv))
      | _, .isFalse h2, _ =>
          .isFalse (by intro hh; injection hh with hkv hes; exact h2 (congrArg Prod.snd hkv))
      | _, _, .isFalse h3 =>
          .isFalse (by intro hh; injection hh with hkv hes; exact h3 hes)
def itemsDecEq : (a b : List Val) → Decidable (a = b)
  | [], [] => .isTrue rfl
  | [], _ :: _ => .isFalse (fun h => List.noConfusion h)
  | _ :: _, [] => .isFalse (fun h => List.noConfusion h)
  | v :: xs, v2 :: xs2 =>
      match valDecEq v v2, itemsDecEq xs xs2 with
      | .isTrue h1, .isTrue h2 => .isTrue (by rw [h1, h2])
      | .isFalse h1, _ =>
          .isFalse (by intro hh; injection hh with hv hxs; exact h1 hv)
      | _, .isFalse h2 =>
          .isFalse (by intro hh; injection hh with hv hxs; exact h2 hxs)
end

instance : DecidableEq Val := valDecEq

/-! Character and line utilities.  A line is a `List Char` not containing a
newline character. -/

/-- Character constants written via code points to keep the source free of
escaped quote and backslash literals. -/
def bslashChar : Char := Char.ofNat 92

def squoteChar : Char := Char.ofNat 39

def lit (s : String) : List Char := s.data

def mkIndent (n : Nat) : List Char := List.replicate n ' '

/-- Number of leading space characters of a line. -/
def indentOf (l : List Char) : Nat := (l.takeWhile (fun c => c == ' ')).length

/-- The line with its leading spaces removed. -/
def contentOf (l : List Char) : List Char := l.dropWhile (fun c => c == ' ')

/-- Prefix test on character lists. -/
def startsList : List Char → List Char → Bool
  | [], _ => true
  | _ :: _, [] => false
  | p :: ps, c :: cs => p == c && startsList ps cs

/-- Substring test on character lists. -/
def hasSub (pat : List Char) : List Char → Bool
  | [] => pat.isEmpty
  | c :: cs => startsList pat (c :: cs) || hasSub pat cs

/-- Suffix test on character lists. -/
def endsList (suf l : List Char) : Bool := startsList suf.reverse l.reverse

/-- Model of Python `rstrip(chr(10))`: remove trailing newline characters. -/
def stripTrailingNl (cs : List Char) : List Char :=
  ((cs.reverse).dropWhile (fun c => c == '\n')).reverse

/-- Number of trailing newline characters. -/
def countTrailingNl (cs : List Char) : Nat :=
  ((cs.reverse).takeWhile (fun c => c == '\n')).length

/-- Model of Python `rstrip()`: remove trailing whitespace. -/
def rstripWs (cs : List Char) : List Char :=
  ((cs.reverse).dropWhile Char.isWhitespace).reverse

/-- Split a character list on a separator character; the result always has
one more element than the number of separators, like Python `split`. -/
def splitOnChar (sep : Char) : List Char → List (List Char)
  | [] => [[]]
  | c :: cs =>
      if c == sep then [] :: splitOnChar sep cs
      else
        match splitOnChar sep cs with
        | l :: ls => (c :: l) :: ls
        | [] => [[c]]

def splitNl (cs : List Char) : List (List Char) := splitOnChar '\n' cs

/-- Join lines, terminating every line with a newline (the shape of all
dumper output). -/
def joinNl (ls : List (List Char)) : List Char :=
  ls.foldr (fun l acc => l ++ '\n' :: acc) []

/-- Join lines with newline separators but no terminator (used for block
scalar bodies). -/
def interNl : List (List Char) → List Char
  | [] => []
  | [l] => l
  | l :: ls => l ++ '\n' :: interNl ls

/-- Drop trailing empty lines (YAML ignores trailing blank lines of a
document). -/
def dropTrailEmpty (ls : List (List Char)) : List (List Char) :=
  ((ls.reverse).dropWhile List.isEmpty).reverse

/-! Scalar resolution and plain-style safety.  `resolveScalar` models the
PyYAML 1.1 resolver on the canonical scalar texts the dumper emits; the
parser refuses plain texts whose resolution the model does not cover
(octal-looking integers, floats, sexagesimals), so it is conservative:
where it returns a value, `yaml.safe_load` returns the same value. -/

def nullLits : List (List Char) := [lit "null", lit "Null", lit "NULL", lit "~"]

def trueLits : List (List Char) :=
  [lit "true", lit "True", lit "TRUE", lit "yes", lit "Yes", lit "YES",
   lit "on", lit "On", lit "ON"]

def falseLits : List (List Char) :=
  [lit "false", lit "False", lit "FALSE", lit "no", lit "No", lit "NO",
   lit "off", lit "Off", lit "OFF"]

/-- Canonical decimal integer text: an optional minus sign followed by
digits with no leading zero (the exact shape `str(int)` produces, hence the
shape the dumper emits). -/
def canonicalIntTxt (cs : List Char) : Bool :=
  let ds := if cs.head? == some '-' then cs.drop 1 else cs
  (!ds.isEmpty) && ds.all Char.isDigit && (ds.length == 1 || ds.head? != some '0')

def digitsToNat (cs : List Char) : Nat :=
  cs.foldl (fun acc c => acc * 10 + (c.toNat - 48)) 0

def intValOf (cs : List Char) : Int :=
  if cs.head? == some '-' then -(digitsToNat (cs.drop 1) : Int)
  else (digitsToNat cs : Int)

/-- Decimal digit character. -/
def natDigitChar (d : Nat) : Char := Char.ofNat (48 + d)

/-- Fueled decimal rendering of a natural number (structural recursion so
that concrete documents reduce in the kernel). -/
def natDigitsF : Nat → Nat → List Char
  | 0, _ => []
  | fuel + 1, n =>
      if n < 10 then [natDigitChar n]
      else natDigitsF fuel (n / 10) ++ [natDigitChar (n % 10)]

/-- Decimal rendering of a natural number, the digits of Python `str`. -/
def natDigits (n : Nat) : List Char := natDigitsF (n + 1) n

/-- Decimal rendering of an integer, modelling Python `str` on `int` (the
text the dumper emits for integer scalars). -/
def intTxt (n : Int) : List Char :=
  if n < 0 then '-' :: natDigits n.natAbs else natDigits n.toNat

/-- Model of the PyYAML implicit resolver on a plain scalar text, restricted
to the canonical texts of the model. -/
def resolveScalar (cs : List Char) : Val :=
  if cs.isEmpty || nullLits.contains cs then .null
  else if trueLits.contains cs then .bool true
  else if falseLits.contains cs then .bool false
  else if canonicalIntTxt cs then .int (intValOf cs)
  else .str ⟨cs⟩

/-- Characters the model allows in plain (unquoted) scalars and keys.  The
whitelist is conservative: it excludes every YAML indicator, the colon, the
comment marker, quotes and the backslash. -/
def plainChar (c : Char) : Bool :=
  c.isAlphanum || c == ' ' || c == '_' || c == '-' || c == '.' || c == ','
    || c == '/' || c == '(' || c == ')'

/-- Texts the dumper emits as plain scalars and the parser reads back as the
same string: nonempty, starting with a letter or underscore, containing only
whitelisted characters, without a trailing space, and not a boolean or null
keyword.  (The leading-letter requirement keeps the text out of every
numeric resolver pattern.) -/
def plainSafeTxt (cs : List Char) : Bool :=
  match cs.head? with
  | none => false
  | some c =>
      (c.isAlpha || c == '_') && cs.all plainChar && cs.getLast? != some ' '
        && !(trueLits.contains cs) && !(falseLits.contains cs)
        && !(nullLits.contains cs)

/-- Multiline test of `BlockStyleDumper.represent_scalar`: the value,
stripped of trailing newlines, still contains a newline and splits into more
than one line. -/
def multilineCore (cs : List Char) : Bool :=
  let stripped := stripTrailingNl cs
  stripped.contains '\n' && (splitNl stripped).length > 1

inductive ScalarStyle where
  | plain | singleQuoted | doubleQuoted | literal
deriving Repr, DecidableEq

/-- Line-break characters of the PyYAML scalar analyzer. -/
def breakCharB (c : Char) : Bool :=
  c == '\n' || c.toNat == 0x85 || c.toNat == 0x2028 || c.toNat == 0x2029

/-- Characters the PyYAML scalar analyzer counts as `special_characters`
when `allow_unicode=True` (the setting `_save_yaml` passes): anything that
is neither a newline, nor printable ASCII, nor an accepted unicode
character distinct from the byte-order mark. -/
def specialCharB (c : Char) : Bool :=
  !(c == '\n' || (0x20 ≤ c.toNat && c.toNat ≤ 0x7E)) &&
    !((c.toNat == 0x85 || (0xA0 ≤ c.toNat && c.toNat ≤ 0xD7FF)
        || (0xE000 ≤ c.toNat && c.toNat ≤ 0xFFFD)
        || (0x10000 ≤ c.toNat && c.toNat < 0x10FFFF)) && c.toNat != 0xFEFF)

/-- `space_break` of the scalar analyzer: a space character immediately
followed by a line break. -/
def spaceBreakB : List Char → Bool
  | [] => false
  | [_] => false
  | c :: d :: rest => (c == ' ' && breakCharB d) || spaceBreakB (d :: rest)

/-- `allow_block` of `Emitter.analyze_scalar`: block scalars are refused for
values with a trailing space, a space followed by a break, or special
characters. -/
def allowBlock (cs : List Char) : Bool :=
  !(cs.getLast? == some ' ') && !(spaceBreakB cs) && !(cs.any specialCharB)

/-- A string is written as a literal block when `represent_scalar` forces
style `|` (the multiline test) and `choose_scalar_style` accepts it
(`analyze_scalar` grants `allow_block`); otherwise the emitter falls back
to a quoted single line. -/
def blockStyleB (cs : List Char) : Bool := multilineCore cs && allowBlock cs

/-- Style chosen for a string scalar, modelling
`BlockStyleDumper.represent_scalar` (force style `|` for multiline strings,
strip trailing spaces from single-line strings) combined with
`choose_scalar_style`: the forced block style applies only when
`analyze_scalar` grants `allow_block`; otherwise, the `'` branch being
skipped for an explicit `|` style, the emitter falls back to double quotes.
In the `represent_scalar` source the trailing-space branch also checks that
the value does not end with a newline; a value whose last character is a
space cannot end with a newline, so the check is implied here. -/
def representScalarStyle (s : String) : ScalarStyle :=
  if multilineCore s.data then
    if allowBlock s.data then .literal else .doubleQuoted
  else
    let t := if s.data.getLast? == some ' ' then rstripWs s.data else s.data
    if plainSafeTxt t then .plain
    else if t.contains '\n' then .doubleQuoted
    else .singleQuoted

/-- Single-quoted rendering: internal quotes are doubled. -/
def sQuoteTxt (cs : List Char) : List Char :=
  squoteChar :: (cs.flatMap (fun c => if c == squoteChar then [c, c] else [c])) ++ [squoteChar]

/-- Double-quoted rendering with the escapes relevant to the modelled
character set (newline, backslash, double quote, tab); other characters are
emitted verbatim, as the emitter does with `allow_unicode=True`. -/
def dQuoteTxt (cs : List Char) : List Char :=
  '"' :: (cs.flatMap (fun c =>
    if c == '\n' then [bslashChar, 'n']
    else if c == bslashChar then [bslashChar, bslashChar]
    else if c == '"' then [bslashChar, '"']
    else if c.toNat == 9 then [bslashChar, 't']
    else [c])) ++ ['"']

/-- Single-line rendering of a string scalar, following
`representScalarStyle`.  A multiline string lands here exactly when
`allow_block` fails; the emitter then double-quotes the full value (the
trailing-space strip of `represent_scalar` applies only to single-line
strings). -/
def inlineStrTxt (s : String) : List Char :=
  if multilineCore s.data then dQuoteTxt s.data
  else
    let t := if s.data.getLast? == some ' ' then rstripWs s.data else s.data
    match representScalarStyle s with
    | .plain => t
    | .singleQuoted => sQuoteTxt t
    | _ => dQuoteTxt t

/-- Block scalar header: chomping indicator chosen from the number of
trailing newlines, as the PyYAML emitter does. -/
def blockHeaderTxt (s : String) : List Char :=
  let t := countTrailingNl s.data
  if t == 0 then ['|', '-'] else if t == 1 then ['|'] else ['|', '+']

/-- Indented body lines of a literal block scalar.  For keep chomping
(two or more trailing newlines) the extra newlines appear as trailing blank
lines. -/
def blockBodyLines (ind : Nat) (s : String) : List (List Char) :=
  let core := stripTrailingNl s.data
  let t := countTrailingNl s.data
  (splitNl core).map (fun l => mkIndent ind ++ l) ++ List.replicate (t - 1) []

/-- Single-line text of a non-multiline scalar (`SafeDumper` canonical
forms). -/
def atomTxt : Val → List Char
  | .str s => inlineStrTxt s
  | .int n => intTxt n
  | .bool true => lit "true"
  | .bool false => lit "false"
  | .null => lit "null"
  | _ => []

/-- Key rendering: keys are string scalars passed through the same
`represent_scalar`; multiline keys never occur in practice and are rendered
double-quoted. -/
def renderKeyTxt (k : String) : List Char :=
  if multilineCore k.data then dQuoteTxt k.data else inlineStrTxt k

/-- Replace the leading `j+2` spaces of the first line of a nested block by
indent and a dash, producing the compact sequence-item form the PyYAML
emitter uses (`- key: value`). -/
def dashFirst (j : Nat) : List (List Char) → List (List Char)
  | [] => []
  | l :: rest => (mkIndent j ++ '-' :: ' ' :: l.drop (j + 2)) :: rest

mutual
/-- Lines of a node standing alone in block context at indent `j`,
modelling `yaml.dump(value, Dumper=BlockStyleDumper,
default_flow_style=False, sort_keys=False, width=inf)`. -/
def renderVal (j : Nat) : Val → List (List Char)
  | .map [] => [mkIndent j ++ lit "\x7b\x7d"]
  | .seq [] => [mkIndent j ++ lit "[]"]
  | .map (e :: es) => renderEntries j (e :: es)
  | .seq (x :: xs) => renderItems j (x :: xs)
  | .str s =>
      if blockStyleB s.data then
        (mkIndent j ++ blockHeaderTxt s) :: blockBodyLines (j + 2) s
      else [mkIndent j ++ inlineStrTxt s]
  | v => [mkIndent j ++ atomTxt v]
def renderEntries (j : Nat) : List (String × Val) → List (List Char)
  | [] => []
  | (k, v) :: es => renderEntry j k v ++ renderEntries j es
def renderEntry (j : Nat) (k : String) : Val → List (List Char)
  | .map [] => [mkIndent j ++ renderKeyTxt k ++ lit ": \x7b\x7d"]
  | .seq [] => [mkIndent j ++ renderKeyTxt k ++ lit ": []"]
  | .map (e :: es) =>
      (mkIndent j ++ renderKeyTxt k ++ [':']) :: renderEntries (j + 2) (e :: es)
  | .seq (x :: xs) =>
      (mkIndent j ++ renderKeyTxt k ++ [':']) :: renderItems j (x :: xs)
  | .str s =>
      if blockStyleB s.data then
        (mkIndent j ++ renderKeyTxt k ++ lit ": " ++ blockHeaderTxt s) ::
          blockBodyLines (j + 2) s
      else [mkIndent j ++ renderKeyTxt k ++ lit ": " ++ inlineStrTxt s]
  | v' => [mkIndent j ++ renderKeyTxt k ++ lit ": " ++ atomTxt v']
def renderItems (j : Nat) : List Val → List (List Char)
  | [] => []
  | v :: xs => renderItem j v ++ renderItems j xs
def renderItem (j : Nat) (v : Val) : List (List Char) :=
  match v with
  | .map [] => [mkIndent j ++ lit "- \x7b\x7d"]
  | .seq [] => [mkIndent j ++ lit "- []"]
  | .map (e :: es) => dashFirst j (renderEntries (j + 2) (e :: es))
  | .seq (x :: xs) => dashFirst j (renderItems (j + 2) (x :: xs))
  | .str s =>
      if blockStyleB s.data then
        (mkIndent j ++ lit "- " ++ blockHeaderTxt s) :: blockBodyLines (j + 2) s
      else [mkIndent j ++ lit "- " ++ inlineStrTxt s]
  | v' => [mkIndent j ++ lit "- " ++ atomTxt v']
end

/-- Lines of a whole document.  A document whose root is a plain scalar is
followed by the open-ended document marker the PyYAML emitter writes;
collection roots and literal block roots are emitted as their block lines.
The theorems below only use collection roots. -/
def renderDoc (v : Val) : List (List Char) :=
  match v with
  | .map _ => renderVal 0 v
  | .seq _ => renderVal 0 v
  | .str s =>
      if blockStyleB s.data then renderVal 0 v
      else [atomTxt v, lit "..."]
  | _ => [atomTxt v, lit "..."]

/-- Model of `yaml.dump(data, Dumper=BlockStyleDumper, ...)` as used in
`_save_yaml` and `_get_value_content`: the joined, newline-terminated
document lines. -/
def dumpDoc (v : Val) : String := ⟨joinNl (renderDoc v)⟩

/-! Parser: a conservative model of `yaml.safe_load` on the block
sublanguage emitted by the dumper (block mappings with plain or quoted-free
keys, block and indentless sequences, compact nested items, literal block
scalars with strip or clip chomping, plain scalars in canonical form, and
the empty flow collections).  On texts outside this sublanguage the model
returns `none`; `yaml.safe_load` raising `YAMLError` is also modelled by
`none`. -/

/-- Sequence item line test: the content begins with a dash and a space. -/
def isDashItem (c : List Char) : Bool := startsList (lit "- ") c

/-- Block scalar headers accepted by the model (strip and clip chomping). -/
def isBlockHeaderTxt (c : List Char) : Bool := c == lit "|" || c == lit "|-"

/-- Mapping entry line test: the content contains a colon-space separator or
ends with a colon. -/
def isEntryLine (c : List Char) : Bool := hasSub (lit ": ") c || c.getLast? == some ':'

/-- Split a mapping entry content at the first colon that is followed by a
space or ends the line; returns the key text and the value text (`none` for
a key introducing a nested block). -/
def splitEntry : List Char → Option (List Char × Option (List Char))
  | [] => none
  | [c] => if c == ':' then some ([], none) else none
  | c :: d :: rest =>
      if c == ':' && d == ' ' then some ([], some rest)
      else (splitEntry (d :: rest)).map (fun kv => (c :: kv.1, kv.2))

/-- Parse a single-line scalar value text.  Refuses any text outside the
canonical sublanguage (quoted scalars, floats, octal-looking numbers,
texts with surrounding spaces or non-whitelisted characters). -/
def parseScalarLine (c : List Char) : Option Val :=
  if c == lit "\x7b\x7d" then some (.map [])
  else if c == lit "[]" then some (.seq [])
  else if c.isEmpty then some .null
  else if c.head? == some ' ' || c.getLast? == some ' ' then none
  else if !(c.all plainChar) then none
  else if c.head? == some '-' then
    if canonicalIntTxt c then some (.int (intValOf c)) else none
  else if (c.head?.map Char.isDigit).getD false && !(canonicalIntTxt c) then none
  else some (resolveScalar c)

/-- Collect the body of a literal block scalar whose content is indented at
least `ci` columns, apply the chomping of the header, and return the scalar
together with the remaining lines. -/
def parseBlockScalar (ci : Nat) (header : List Char) (ls : List (List Char)) :
    Option (String × List (List Char)) :=
  let taken := ls.takeWhile (fun l => ci ≤ indentOf l)
  let rem := ls.dropWhile (fun l => ci ≤ indentOf l)
  if taken.isEmpty then none
  else
    let body := interNl (taken.map (fun l => l.drop ci))
    if header == lit "|" then some (⟨body ++ ['\n']⟩, rem)
    else some (⟨body⟩, rem)

/-- Parser request: a block node, the items of a sequence, or the entries of
a mapping, each at a given indent. -/
inductive PReq where
  | blockAt (j : Nat)
  | seqItemsAt (j : Nat)
  | entriesAt (j : Nat)

/-- Parser result shapes corresponding to `PReq`. -/
inductive PRes where
  | one (v : Val)
  | items (xs : List Val)
  | entries (es : List (String × Val))

/-- Fueled recursive-descent parser over document lines.  Fuel decreases on
every self call; `parseFuel` below always provides enough.  Compact sequence
items (`- inner`) are parsed by rewriting the item line as `inner` indented
two more columns, which is exactly the inverse of `dashFirst`. -/
def parseStep : Nat → PReq → List (List Char) → Option (PRes × List (List Char))
  | 0, _, _ => none
  | _ + 1, .blockAt _, [] => none
  | fuel + 1, .blockAt j, l :: rest =>
      let c := contentOf l
      if indentOf l != j then none
      else if isDashItem c then
        match parseStep fuel (.seqItemsAt j) (l :: rest) with
        | some (.items xs, rem) => some (.one (.seq xs), rem)
        | _ => none
      else if isBlockHeaderTxt c then
        match parseBlockScalar (j + 2) c rest with
        | some (s, rem) => some (.one (.str s), rem)
        | none => none
      else if isEntryLine c then
        match parseStep fuel (.entriesAt j) (l :: rest) with
        | some (.entries es, rem) => some (.one (.map es), rem)
        | _ => none
      else
        match parseScalarLine c with
        | some v => some (.one v, rest)
        | none => none
  | _ + 1, .seqItemsAt _, [] => some (.items [], [])
  | fuel + 1, .seqItemsAt j, l :: rest =>
      let c := contentOf l
      if indentOf l == j && isDashItem c then
        let r := c.drop 2
        if isBlockHeaderTxt r then
          match parseBlockScalar (j + 2) r rest with
          | some (s, rem) =>
              match parseStep fuel (.seqItemsAt j) rem with
              | some (.items xs, rem') => some (.items (Val.str s :: xs), rem')
              | _ => none
          | none => none
        else
          match parseStep fuel (.blockAt (j + 2)) ((mkIndent (j + 2) ++ r) :: rest) with
          | some (.one v, rem) =>
              match parseStep fuel (.seqItemsAt j) rem with
              | some (.items xs, rem') => some (.items (v :: xs), rem')
              | _ => none
          | _ => none
      else some (.items [], l :: rest)
  | _ + 1, .entriesAt _, [] => some (.entries [], [])
  | fuel + 1, .entriesAt j, l :: rest =>
      let c := contentOf l
      if indentOf l == j && isEntryLine c then
        match splitEntry c with
        | none => none
        | some (ktxt, vtxt?) =>
            if !(plainSafeTxt ktxt) then none
            else
              let k : String := ⟨ktxt⟩
              match vtxt? with
              | some vtxt =>
                  if isBlockHeaderTxt vtxt then
                    match parseBlockScalar (j + 2) vtxt rest with
                    | some (s, rem) =>
                        match parseStep fuel (.entriesAt j) rem with
                        | some (.entries es, rem') =>
                            some (.entries ((k, Val.str s) :: es), rem')
                        | _ => none
                    | none => none
                  else
                    match parseScalarLine vtxt with
                    | some v =>
                        match parseStep fuel (.entriesAt j) rest with
                        | some (.entries es, rem') => some (.entries ((k, v) :: es), rem')
                        | _ => none
                    | none => none
              | none =>
                  match rest with
                  | [] =>
                      match parseStep fuel (.entriesAt j) ([] : List (List Char)) with
                      | some (.entries es, rem') => some (.entries ((k, Val.null) :: es), rem')
                      | _ => none
                  | l2 :: _ =>
                      if j < indentOf l2 then
                        match parseStep fuel (.blockAt (indentOf l2)) rest with
                        | some (.one v, rem) =>
                            match parseStep fuel (.entriesAt j) rem with
                            | some (.entries es, rem') => some (.entries ((k, v) :: es), rem')
                            | _ => none
                        | _ => none
                      else if indentOf l2 == j && isDashItem (contentOf l2) then
                        match parseStep fuel (.seqItemsAt j) rest with
                        | some (.items xs, rem) =>
                            match parseStep fuel (.entriesAt j) rem with
                            | some (.entries es, rem') =>
                                some (.entries ((k, Val.seq xs) :: es), rem')
                            | _ => none
                        | _ => none
                      else
                        match parseStep fuel (.entriesAt j) rest with
                        | some (.entries es, rem') => some (.entries ((k, Val.null) :: es), rem')
                        | _ => none
      else some (.entries [], l :: rest)

/-- Fuel that always suffices for `parseStep` on the given lines. -/
def parseFuel (ls : List (List Char)) : Nat :=
  ls.foldr (fun l a => 8 * l.length + 8 + a) 8

/-- Strip a leading document-start marker line. -/
def stripDocStart (ls : List (List Char)) : List (List Char) :=
  match ls with
  | l :: rest => if l == lit "---" then rest else l :: rest
  | [] => []

/-- Model of `yaml.safe_load`: split into lines, ignore trailing blank
lines, strip a document-start marker, and parse a single block node
consuming the whole document.  Returns `some .null` for an empty document
(Python `None`) and `none` where the real parser raises or where the text
is outside the modelled sublanguage. -/
def safeLoadModel (s : String) : Option Val :=
  let ls := stripDocStart (dropTrailEmpty (splitNl s.data))
  match ls with
  | [] => some .null
  | _ =>
      match parseStep (parseFuel ls) (.blockAt 0) ls with
      | some (.one v, []) => some v
      | _ => none

/-! Load pipeline: `_convert_quoted_strings`, the `or` default and
`_load_yaml`. -/

/-- Replace each two-character backslash-n sequence by a newline, the effect
of the Python `value.replace` call in `_convert_quoted_strings` (identity
when the sequence is absent). -/
def replaceBsN : List Char → List Char
  | [] => []
  | [c] => [c]
  | c :: d :: rest =>
      if c == bslashChar && d == 'n' then '\n' :: replaceBsN rest
      else c :: replaceBsN (d :: rest)

mutual
/-- Model of `_convert_quoted_strings`: in every mapping, string values have
their literal backslash-n sequences replaced by newlines and container
values are converted recursively; strings sitting directly inside lists are
not touched (the list branch of the source only recurses into nested
containers). -/
def convertQuoted : Val → Val
  | .map es => .map (convertFields es)
  | .seq xs => .seq (convertItems xs)
  | v => v
def convertFields : List (String × Val) → List (String × Val)
  | [] => []
  | (k, .str s) :: es => (k, .str ⟨replaceBsN s.data⟩) :: convertFields es
  | (k, v) :: es => (k, convertQuoted v) :: convertFields es
def convertItems : List Val → List Val
  | [] => []
  | v :: xs => convertQuoted v :: convertItems xs
end

/-- Python falsiness on tree values, for the `yaml.safe_load(f) or` default
in `_load_yaml`. -/
def pyFalsy : Val → Bool
  | .null => true
  | .str s => s.isEmpty
  | .int n => n == 0
  | .bool b => !b
  | .map [] => true
  | .seq [] => true
  | _ => false

def pyOrEmptyMap (v : Val) : Val := if pyFalsy v then .map [] else v

/-- Outcome log of `_load_yaml`. -/
inductive LoadLog where
  | clean | warnedMissing | errorParse
deriving Repr, DecidableEq

structure LoadResult where
  data : Val
  log : LoadLog
deriving Repr, DecidableEq

/-- Model of `_load_yaml`: the backing file is `none` when missing,
`some text` otherwise.  A missing file produces an empty mapping with a
logged warning; a parse failure produces an empty mapping with a logged
error; a successful parse is defaulted through `or` and passed through
`_convert_quoted_strings`.  The function is total: no outcome raises. -/
def loadYamlModel (file : Option String) : LoadResult :=
  match file with
  | none => ⟨.map [], .warnedMissing⟩
  | some text =>
      match safeLoadModel text with
      | none => ⟨.map [], .errorParse⟩
      | some v => ⟨convertQuoted (pyOrEmptyMap v), .clean⟩

/-! Filesystem state and path machinery. -/

/-- Filesystem error codes surfaced by the handlers. -/
inductive Errno where
  | ENOENT | ENOTDIR
deriving Repr, DecidableEq

/-- Presentation modes selected by the path suffix. -/
inductive Mode where
  | yaml | json
deriving Repr, DecidableEq

/-- A step from a container to a child: a mapping key or a sequence index.
Used to address the container returned by path resolution inside the
(immutably modelled) tree. -/
inductive PathStep where
  | key (k : String)
  | idx (i : Nat)
deriving Repr, DecidableEq

/-- Mutable state of the `YAMLFuse` object.  Byte contents are modelled as
text; `backing` is the content of the backing YAML file after the last
successful save (modification-time bookkeeping and out-of-band edits are
outside the modelled transitions, so `_reload_if_needed` is the identity
here). -/
structure FSState where
  data : Val
  ephemeralFiles : List (String × String)
  writeBuffers : List (String × String)
  dirty : Bool
  cacheInvalidated : Bool
  backing : Option String
  defaultMode : Mode
deriving Repr, DecidableEq

/-- Association list lookup (Python dict access). -/
def lookupS : List (String × String) → String → Option String
  | [], _ => none
  | (k, v) :: rest, key => if k == key then some v else lookupS rest key

def lookupF : List (String × Val) → String → Option Val
  | [], _ => none
  | (k, v) :: rest, key => if k == key then some v else lookupF rest key

def containsKeyF (es : List (String × Val)) (key : String) : Bool :=
  (lookupF es key).isSome

/-- Python dict assignment: replace the value in place if the key exists,
otherwise append preserving insertion order. -/
def setF : List (String × Val) → String → Val → List (String × Val)
  | [], key, v => [(key, v)]
  | (k, w) :: rest, key, v =>
      if k == key then (k, v) :: rest else (k, w) :: setF rest key v

def setS : List (String × String) → String → String → List (String × String)
  | [], key, v => [(key, v)]
  | (k, w) :: rest, key, v =>
      if k == key then (k, v) :: rest else (k, w) :: setS rest key v

/-- Python dict deletion. -/
def delF : List (String × Val) → String → List (String × Val)
  | [], _ => []
  | (k, w) :: rest, key => if k == key then rest else (k, w) :: delF rest key

def delS : List (String × String) → String → List (String × String)
  | [], _ => []
  | (k, w) :: rest, key => if k == key then rest else (k, w) :: delS rest key

/-- Model of Python `int(text)` as used on path segments: optional sign and
decimal digits (leading zeros allowed). -/
def pyInt (cs : List Char) : Option Int :=
  let (neg, ds) :=
    match cs with
    | '-' :: rest => (true, rest)
    | '+' :: rest => (false, rest)
    | rest => (false, rest)
  if ds.isEmpty || !(ds.all Char.isDigit) then none
  else if neg then some (-(digitsToNat ds : Int)) else some (digitsToNat ds : Int)

/-- Model of Python `path.strip(chr(47))`. -/
def stripSlashes (cs : List Char) : List Char :=
  (((cs.dropWhile (fun c => c == '/')).reverse).dropWhile (fun c => c == '/')).reverse

/-- Model of `path.strip(chr(47)).split(chr(47))`; never returns `[]`. -/
def pathParts (p : String) : List String :=
  (splitOnChar '/' (stripSlashes p.data)).map (fun cs => ⟨cs⟩)

def isRootPath (p : String) : Bool := p == "/" || p == ""

/-- Walk from `cur` through the intermediate segments of a path, mirroring
the loop of `_resolve_path`: missing mapping keys are created as empty
mappings when `cm` is set, sequence segments must be in-bounds integer
indexes, and scalars stop the walk.  Returns the updated subtree, the final
container and the steps from `cur` to that container.  When the walk fails
the Python original has performed no mutation either (created intermediate
mappings can only be followed by further successful dict steps). -/
def resolveGo (cur : Val) (mid : List String) (cm : Bool) :
    Option (Val × Val × List PathStep) :=
  match mid with
  | [] => some (cur, cur, [])
  | p :: ps =>
      match cur with
      | .map es =>
          match lookupF es p with
          | some child =>
              match resolveGo child ps cm with
              | some (child', cont, steps) =>
                  some (.map (setF es p child'), cont, .key p :: steps)
              | none => none
          | none =>
              if cm then
                match resolveGo (.map []) ps cm with
                | some (child', cont, steps) =>
                    some (.map (es ++ [(p, child')]), cont, .key p :: steps)
                | none => none
              else none
      | .seq xs =>
          match pyInt p.data with
          | some i =>
              if 0 ≤ i && i.toNat < xs.length then
                match resolveGo (xs.getD i.toNat .null) ps cm with
                | some (child', cont, steps) =>
                    some (.seq (xs.set i.toNat child'), cont, .idx i.toNat :: steps)
                | none => none
              else none
          | none => none
      | _ => none

/-- Model of `_resolve_path`: the root path resolves to the root container
with an absent key; otherwise the walk of `resolveGo` over all but the last
segment.  Returns `(updated root, container, steps to container, last
segment)`; `none` models the Python `(None, None)` failure. -/
def resolvePath (root : Val) (path : String) (cm : Bool) :
    Option (Val × Val × List PathStep × Option String) :=
  if isRootPath path then some (root, root, [], none)
  else
    let parts := pathParts path
    match parts.getLast? with
    | none => none
    | some last =>
        match resolveGo root parts.dropLast cm with
        | some (root', cont, steps) => some (root', cont, steps, some last)
        | none => none

/-- Model of `_resolve_path_for_mkdir`: identical walk except that missing
intermediate mapping keys are always created. -/
def resolvePathForMkdir (root : Val) (path : String) :
    Option (Val × Val × List PathStep × Option String) :=
  if isRootPath path then some (root, root, [], none)
  else
    let parts := pathParts path
    match parts.getLast? with
    | none => none
    | some last =>
        match resolveGo root parts.dropLast true with
        | some (root', cont, steps) => some (root', cont, steps, some last)
        | none => none

/-- Apply a function at the container addressed by `steps` (the functional
rendering of mutating through a Python reference). -/
def updateAt (root : Val) (steps : List PathStep) (f : Val → Val) : Val :=
  match steps with
  | [] => f root
  | .key k :: rest =>
      match root with
      | .map es => .map (es.map (fun kv => if kv.1 == k then (kv.1, updateAt kv.2 rest f) else kv))
      | v => v
  | .idx i :: rest =>
      match root with
      | .seq xs => .seq (xs.set i (updateAt (xs.getD i .null) rest f))
      | v => v

/-! Content codec and the FUSE operation handlers. -/

/-- JSON string escaping (quote, backslash, newline; other control
characters do not occur in the modelled values). -/
def jsonStrTxt (s : String) : List Char :=
  '"' :: (s.data.flatMap (fun c =>
    if c == '"' then [bslashChar, '"']
    else if c == bslashChar then [bslashChar, bslashChar]
    else if c == '\n' then [bslashChar, 'n']
    else [c])) ++ ['"']

mutual
/-- Model of `json.dumps(value, indent=2, ensure_ascii=False)` at a given
indent (only reachable through the `.json` suffix, which no theorem below
exercises; included for totality of `_get_value_content`). -/
def jsonVal (ind : Nat) : Val → List Char
  | .str s => jsonStrTxt s
  | .int n => intTxt n
  | .bool true => lit "true"
  | .bool false => lit "false"
  | .null => lit "null"
  | .map [] => lit "\x7b\x7d"
  | .seq [] => lit "[]"
  | .map (e :: es) =>
      lit "\x7b" ++ '\n' :: jsonFields (ind + 2) (e :: es) ++ '\n' :: mkIndent ind ++ lit "\x7d"
  | .seq (x :: xs) =>
      lit "[" ++ '\n' :: jsonItems (ind + 2) (x :: xs) ++ '\n' :: mkIndent ind ++ lit "]"
def jsonFields (ind : Nat) : List (String × Val) → List Char
  | [] => []
  | [(k, v)] => mkIndent ind ++ jsonStrTxt k ++ lit ": " ++ jsonVal ind v
  | (k, v) :: e :: es =>
      mkIndent ind ++ jsonStrTxt k ++ lit ": " ++ jsonVal ind v ++ lit ",\n" ++
        jsonFields ind (e :: es)
def jsonItems (ind : Nat) : List Val → List Char
  | [] => []
  | [v] => mkIndent ind ++ jsonVal ind v
  | v :: x :: xs => mkIndent ind ++ jsonVal ind v ++ lit ",\n" ++ jsonItems ind (x :: xs)
end

/-- Model of `_get_value_content`: strings are returned verbatim; other
values are serialized in the requested mode. -/
def getValueContent (v : Val) (m : Mode) : String :=
  match v with
  | .str s => s
  | _ =>
      match m with
      | .json => ⟨jsonVal 0 v⟩
      | .yaml => dumpDoc v

/-- Model of `_strip_suffix`. -/
def stripSuffixMode (dflt : Mode) (path : String) : String × Mode :=
  if endsList (lit ".json") path.data then
    (⟨path.data.take (path.data.length - 5)⟩, .json)
  else if endsList (lit ".yaml") path.data then
    (⟨path.data.take (path.data.length - 5)⟩, .yaml)
  else if endsList (lit ".yml") path.data then
    (⟨path.data.take (path.data.length - 4)⟩, .yaml)
  else (path, dflt)

/-- Model of `_is_ephemeral`: the basename starts with a dot. -/
def isEphemeralPath (p : String) : Bool :=
  match (splitOnChar '/' p.data).getLast? with
  | some base => base.head? == some '.'
  | none => false

/-- Model of `_save_yaml` (the success path): write the dumped tree to the
backing file and clear the dirty flag. -/
def saveYaml (st : FSState) : FSState :=
  {st with backing := some (dumpDoc st.data), dirty := false}

/-- Child access used by `getattr` and `read`: `parent.get(key)` for
mappings, guarded integer indexing for sequences.  A missing key and a null
value both produce Python `None`, collapsed here to `none` exactly as the
`target is None` tests do. -/
def pyOptChild (cont : Val) (key : String) : Option Val :=
  match cont with
  | .map es =>
      match lookupF es key with
      | some .null => none
      | x => x
  | .seq xs =>
      match pyInt key.data with
      | some i =>
          if 0 ≤ i && i.toNat < xs.length then
            match xs.getD i.toNat .null with
            | .null => none
            | v => some v
          else none
      | none => none
  | _ => none

/-- File attributes returned by `getattr`: a directory, or a regular file
with its content size in UTF-8 bytes. -/
inductive FileAttr where
  | dir
  | file (size : Nat)
deriving Repr, DecidableEq

/-- Model of `YAMLFuse.getattr`. -/
def getattrOp (st : FSState) (path : String) : Except Errno FileAttr :=
  if isEphemeralPath path then
    match lookupS st.ephemeralFiles path with
    | none => .error .ENOENT
    | some content => .ok (.file content.utf8ByteSize)
  else
    let sm := stripSuffixMode st.defaultMode path
    if sm.1 == "/" then .ok .dir
    else
      match resolvePath st.data sm.1 false with
      | none => .error .ENOENT
      | some (_, _, _, none) => .ok .dir
      | some (_, cont, _, some key) =>
          match pyOptChild cont key with
          | none => .error .ENOENT
          | some (.map _) => .ok .dir
          | some v => .ok (.file (getValueContent v sm.2).utf8ByteSize)

/-- Byte-range slice of a content string. -/
def sliceStr (s : String) (offset size : Nat) : String :=
  ⟨(s.data.drop offset).take size⟩

/-- Model of `YAMLFuse.read`.  Note that the handler itself never fails: a
hidden path with no ephemeral entry and a resolution failure both yield
empty content. -/
def readOp (st : FSState) (path : String) (size offset : Nat) : String :=
  if isEphemeralPath path then
    sliceStr ((lookupS st.ephemeralFiles path).getD "") offset size
  else
    let sm := stripSuffixMode st.defaultMode path
    match resolvePath st.data sm.1 false with
    | none => ""
    | some (_, _, _, none) => ""
    | some (_, cont, _, some key) =>
        match pyOptChild cont key with
        | none => ""
        | some v => sliceStr (getValueContent v sm.2) offset size

/-- Model of `YAMLFuse.write`: ephemeral paths are overwritten in place from
the offset; regular paths accumulate into the per-path write buffer, a zero
offset starting a fresh buffer and any other offset appending. -/
def writeOp (st : FSState) (path : String) (data : String) (offset : Nat) : FSState :=
  if isEphemeralPath path then
    let current := (lookupS st.ephemeralFiles path).getD ""
    let updated := setS st.ephemeralFiles path ⟨current.data.take offset ++ data.data⟩
    {st with ephemeralFiles := updated}
  else
    let newBuf : String :=
      if offset == 0 then data
      else ⟨((lookupS st.writeBuffers path).getD "").data ++ data.data⟩
    {st with writeBuffers := setS st.writeBuffers path newBuf}

/-- Content classification of `YAMLFuse.release` (lines 479 to 503 of the
source): text that looks structured (starts with a dash, brace or bracket,
or contains a colon) is given to the YAML parser and any successful parse
result is used, including null; a parse error falls back to the
newline-stripped string; text that does not look structured is kept as a
verbatim multiline string or a newline-stripped single line. -/
def classifyContent (content : String) : Val :=
  let stripped := stripTrailingNl content.data
  if startsList (lit "-") stripped || startsList (lit "\x7b") stripped
      || startsList (lit "[") stripped || stripped.contains ':' then
    match safeLoadModel content with
    | some v => v
    | none => .str ⟨stripped⟩
  else if stripped.contains '\n' && (splitNl stripped).length > 1 then
    .str content
  else .str ⟨stripped⟩

/-- Model of `YAMLFuse.release`: commit the write buffer for the path (if
any), storing the classified value at the resolved location
(`create_missing=True`), set the dirty flag, invalidate the directory
cache, and save.  A negative sequence index within range assigns from the
end as Python does; one below range raises IndexError in Python, leaving
dirty unset and skipping the save, which the corresponding branch mirrors.
The root-path location (absent key) would store under a Python `None` key,
which string-keyed mappings cannot represent; the host never issues a write
to the root directory, so that branch only commits the bookkeeping. -/
def releaseOp (st : FSState) (path : String) : FSState :=
  match lookupS st.writeBuffers path with
  | none => if st.dirty then saveYaml st else st
  | some data =>
      let st1 := {st with writeBuffers := delS st.writeBuffers path}
      let sm := stripSuffixMode st1.defaultMode path
      let newValue := classifyContent data
      match resolvePath st1.data sm.1 true with
      | none =>
          saveYaml {st1 with dirty := true, cacheInvalidated := true}
      | some (root', cont, steps, keyOpt) =>
          let stR := {st1 with data := root'}
          match keyOpt with
          | none => saveYaml {stR with dirty := true, cacheInvalidated := true}
          | some key =>
              match cont with
              | .map _ =>
                  saveYaml {stR with
                    data := updateAt root' steps (fun c =>
                      match c with
                      | .map es => .map (setF es key newValue)
                      | c' => c'),
                    dirty := true, cacheInvalidated := true}
              | .seq xs =>
                  match pyInt key.data with
                  | some i =>
                      if 0 ≤ i then
                        saveYaml {stR with
                          data := updateAt root' steps (fun c =>
                            match c with
                            | .seq ys =>
                                .seq (List.set
                                  (ys ++ List.replicate (i.toNat + 1 - ys.length) Val.null)
                                  i.toNat newValue)
                            | c' => c'),
                          dirty := true, cacheInvalidated := true}
                      else if 0 ≤ (xs.length : Int) + i then
                        saveYaml {stR with
                          data := updateAt root' steps (fun c =>
                            match c with
                            | .seq ys =>
                                .seq (List.set ys (((ys.length : Int) + i).toNat) newValue)
                            | c' => c'),
                          dirty := true, cacheInvalidated := true}
                      else stR
                  | none =>
                      saveYaml {stR with
                        data := updateAt root' steps (fun c =>
                          match c with
                          | .seq ys => .seq (ys ++ [newValue])
                          | c' => c'),
                        dirty := true, cacheInvalidated := true}
              | _ =>
                  saveYaml {stR with dirty := true, cacheInvalidated := true}

/-- Model of `YAMLFuse.create`: ephemeral paths get an empty entry;
otherwise the location is resolved with `create_missing=True` and an empty
string is stored; a failed resolution or a non-mapping container raises
ENOTDIR.  On the root path Python stores an empty string under a `None`
key, not representable with string keys and never issued by the host; the
branch commits only the dirty flag. -/
def createOp (st : FSState) (path : String) : Except Errno FSState :=
  if isEphemeralPath path then
    .ok {st with ephemeralFiles := setS st.ephemeralFiles path ""}
  else
    let sm := stripSuffixMode st.defaultMode path
    match resolvePath st.data sm.1 true with
    | none => .error .ENOTDIR
    | some (root', cont, steps, keyOpt) =>
        match keyOpt with
        | none => .ok {st with data := root', dirty := true}
        | some key =>
            match cont with
            | .map _ =>
                .ok {st with
                  data := updateAt root' steps (fun c =>
                    match c with
                    | .map es => .map (setF es key (.str ""))
                    | c' => c'),
                  dirty := true}
            | _ => .error .ENOTDIR

/-- Model of `YAMLFuse.unlink`: ephemeral entries are popped; otherwise the
path is resolved without creation, a missing resolution or absent key
raises ENOENT, and a present mapping key is deleted, the tree saved
immediately. -/
def unlinkOp (st : FSState) (path : String) : Except Errno FSState :=
  if isEphemeralPath path then
    .ok {st with ephemeralFiles := delS st.ephemeralFiles path}
  else
    let sm := stripSuffixMode st.defaultMode path
    match resolvePath st.data sm.1 false with
    | none => .error .ENOENT
    | some (root', cont, steps, keyOpt) =>
        match keyOpt with
        | none => .error .ENOENT
        | some key =>
            match cont with
            | .map es =>
                if containsKeyF es key then
                  .ok (saveYaml {st with
                    data := updateAt root' steps (fun c =>
                      match c with
                      | .map es' => .map (delF es' key)
                      | c' => c'),
                    dirty := true})
                else .error .ENOENT
            | _ => .error .ENOENT

/-- Model of `YAMLFuse.rmdir`, which simply calls `unlink`. -/
def rmdirOp (st : FSState) (path : String) : Except Errno FSState :=
  unlinkOp st path

/-- Model of `YAMLFuse.mkdir`: resolve with unconditional creation of
intermediates, fail ENOENT on a failed resolution or root path, store an
empty mapping in a mapping container, and fail ENOTDIR otherwise. -/
def mkdirOp (st : FSState) (path : String) : Except Errno FSState :=
  let sm := stripSuffixMode st.defaultMode path
  match resolvePathForMkdir st.data sm.1 with
  | none => .error .ENOENT
  | some (root', cont, steps, keyOpt) =>
      match keyOpt with
      | none => .error .ENOENT
      | some key =>
          match cont with
          | .map _ =>
              .ok {st with
                data := updateAt root' steps (fun c =>
                  match c with
                  | .map es => .map (setF es key (.map []))
                  | c' => c'),
                dirty := true}
          | _ => .error .ENOTDIR

/-! Classification predicates used by the theorems. -/

/-- Scalar (non-container) test on tree values. -/
def isScalarVal : Val → Bool
  | .map _ => false
  | .seq _ => false
  | _ => true

/-- Multiline string texts that serialize and reload unchanged: at most one
trailing newline (strip or clip chomping), all core lines nonempty, a first
line not starting with a space (no indentation indicator needed), no
backslash (so `_convert_quoted_strings` leaves the string alone), and
`allow_block` granted by the scalar analyzer (no trailing space, no space
before a break, no special characters), so the emitter really writes the
forced literal block instead of falling back to a double-quoted line. -/
def goodMultilineTxt (cs : List Char) : Bool :=
  let core := stripTrailingNl cs
  countTrailingNl cs ≤ 1 && core.contains '\n'
    && (splitNl core).all (fun l => !l.isEmpty)
    && ((splitNl core).head?.map (fun l => l.head? != some ' ')).getD false
    && !(cs.contains bslashChar)
    && allowBlock cs

/-- String scalars that serialize and reload unchanged: a plain-safe single
line or a good multiline block. -/
def goodStrTxt (cs : List Char) : Bool :=
  if multilineCore cs then goodMultilineTxt cs
  else !(cs.contains '\n') && plainSafeTxt cs

mutual
/-- Serialization-stable trees: every mapping key is plain-safe and every
string scalar is good; integers, booleans and null are unrestricted. -/
def stableB : Val → Bool
  | .str s => goodStrTxt s.data
  | .int _ => true
  | .bool _ => true
  | .null => true
  | .map es => stableFieldsB es
  | .seq xs => stableItemsB xs
def stableFieldsB : List (String × Val) → Bool
  | [] => true
  | (k, v) :: es => plainSafeTxt k.data && stableB v && stableFieldsB es
def stableItemsB : List Val → Bool
  | [] => true
  | v :: xs => stableB v && stableItemsB xs
end

mutual
/-- Fuel needed by `parseStep` to reparse the rendering of a stable value as
a block node (each parser self-call costs one unit; the definitions below
sum one unit per call along the recursion). -/
def fuelFor : Val → Nat
  | .map [] => 1
  | .seq [] => 1
  | .map (e :: es) => 2 + fuelForFields (e :: es)
  | .seq (x :: xs) => 2 + fuelForItems (x :: xs)
  | _ => 1
def fuelForFields : List (String × Val) → Nat
  | [] => 1
  | (_, v) :: es => 1 + fuelForValue v + fuelForFields es
def fuelForItems : List Val → Nat
  | [] => 1
  | v :: xs => 1 + fuelForValue v + fuelForItems xs
def fuelForValue : Val → Nat
  | .map [] => 1
  | .seq [] => 1
  | .map (e :: es) => 2 + fuelForFields (e :: es)
  | .seq (x :: xs) => 2 + fuelForItems (x :: xs)
  | _ => 1
end

/-! Concrete states and helpers used in the claim theorems. -/

/-- Fresh state over an empty document with default yaml mode. -/
def st0 : FSState := ⟨.map [], [], [], false, false, some "\x7b\x7d\n", .yaml⟩

/-- Value stored at a root-level key. -/
def rootGet (st : FSState) (k : String) : Option Val :=
  match st.data with
  | .map es => lookupF es k
  | _ => none

/-- Write the given content to the file `/k` of a fresh empty document and
release it, then report the committed value at key `k`: the write-session
commit path of the adapter. -/
def doCommit (content : String) : Option Val :=
  rootGet (releaseOp (writeOp st0 "/k" content 0) "/k") "k"

/-- State whose root mapping has a scalar at key `a`. -/
def stScalarA : FSState := {st0 with data := .map [("a", .str "v")]}

/-- State with a small tree, pristine flags. -/
def stTreeA : FSState := {st0 with data := .map [("a", .str "1")]}

/-- State whose root mapping has a nonempty directory at key `a`. -/
def stDirA : FSState :=
  {st0 with data := .map [("a", .map [("x", .str "1"), ("y", .int 2)])]}

/-! Statements and measures for the serialization round-trip development. -/

deriving instance DecidableEq for Except

/-! Theorems.  The first group settles the claims that evaluate on concrete
states; the round-trip development for the serializer follows. -/

/-- Structural induction principle for the nested inductive `Val`, giving
membership-based hypotheses for mapping entries and sequence items. -/
theorem valInduction {P : Val → Prop}
    (hstr : ∀ s, P (.str s)) (hint : ∀ n, P (.int n)) (hbool : ∀ b, P (.bool b))
    (hnull : P .null)
    (hmap : ∀ es, (∀ kv, kv ∈ es → P kv.2) → P (.map es))
    (hseq : ∀ xs, (∀ x, x ∈ xs → P x) → P (.seq xs)) : ∀ v, P v := by
  have key : ∀ n v, sizeOf v ≤ n → P v := by
    intro n
    induction n with
    | zero =>
        intro v hv
        cases v <;> simp at hv
    | succ n ih =>
        intro v hv
        cases v with
        | str s => exact hstr s
        | int m => exact hint m
        | bool b => exact hbool b
        | null => exact hnull
        | map es =>
            refine hmap es (fun kv hkv => ih kv.2 ?_)
            have h1 : sizeOf kv < sizeOf es := List.sizeOf_lt_of_mem hkv
            have h2 : sizeOf kv.2 < sizeOf kv := by
              cases kv with
              | mk a b => simp
            have h3 : sizeOf (Val.map es) = 1 + sizeOf es := by simp
            omega
        | seq xs =>
            refine hseq xs (fun x hx => ih x ?_)
            have h1 : sizeOf x < sizeOf xs := List.sizeOf_lt_of_mem hx
            have h3 : sizeOf (Val.seq xs) = 1 + sizeOf xs := by simp
            omega
  exact fun v => key (sizeOf v) v (Nat.le_refl _)

theorem blockStyleB_parts (cs : List Char) (h : blockStyleB cs = true) :
    multilineCore cs = true ∧ allowBlock cs = true := by
  unfold blockStyleB at h
  simpa [Bool.and_eq_true] using h

theorem blockStyleB_of_allow (cs : List Char) (hml : multilineCore cs = true)
    (hab : allowBlock cs = true) : blockStyleB cs = true := by
  unfold blockStyleB
  rw [hml, hab]
  rfl

theorem blockStyleB_false (cs : List Char) (hml : multilineCore cs = false) :
    blockStyleB cs = false := by
  unfold blockStyleB
  rw [hml]
  rfl

theorem goodStr_multiline (s : String) (hg : goodStrTxt s.data = true)
    (hml : multilineCore s.data = true) : goodMultilineTxt s.data = true := by
  unfold goodStrTxt at hg
  rw [hml] at hg
  simpa using hg

theorem goodMultiline_parts (cs : List Char) (h : goodMultilineTxt cs = true) :
    countTrailingNl cs ≤ 1 ∧ (stripTrailingNl cs).contains '\n' = true ∧
      ((splitNl (stripTrailingNl cs)).all (fun l => !l.isEmpty)) = true ∧
      (((splitNl (stripTrailingNl cs)).head?.map
        (fun l => l.head? != some ' ')).getD false) = true ∧
      cs.contains bslashChar = false ∧ allowBlock cs = true := by
  unfold goodMultilineTxt at h
  simp only [Bool.and_eq_true, decide_eq_true_eq, Bool.not_eq_true'] at h
  exact ⟨h.1.1.1.1.1, h.1.1.1.1.2, h.1.1.1.2, h.1.1.2, h.1.2, h.2⟩

theorem blockStyleB_false_of_not (cs : List Char) (h : ¬ blockStyleB cs = true) :
    blockStyleB cs = false := by
  cases hq : blockStyleB cs with
  | false => rfl
  | true => exact absurd hq h

/-- C1: committing a write-session buffer on file release, to a location
whose container is a mapping, classifies the written text as follows:
writing a dash-itemized two-line text stores the two-element sequence,
writing a two-line text with invalid structured syntax stores the literal
two-line string, writing plain text stores the scalar string, and writing a
colon-separated pair stores the one-entry mapping. -/
theorem c1_commit_type_inference :
    doCommit "- x\n- y" = some (.seq [.str "x", .str "y"]) ∧
    doCommit "a\n- b" = some (.str "a\n- b") ∧
    doCommit "plain text" = some (.str "plain text") ∧
    doCommit "key: value" = some (.map [("key", .str "value")]) := by
  refine ⟨by decide, by decide, by decide, by decide⟩

/-- C7: the code stores a parsed null.  Writing a bare document-start marker
passes the looks-structured gate, parses successfully to null, and the
release commit stores that null at the resolved key with no fallback to the
opaque string, contradicting the claim that a null parse result falls back
to the text. -/
theorem c7_null_parse_is_stored :
    classifyContent "---\n" = Val.null ∧ doCommit "---\n" = some Val.null := by
  refine ⟨by decide, by decide⟩

/-- C9: of the mutation-completing operations, only the write-session
commit (release) sets the directory-cache-invalidated flag; create, unlink
and mkdir return successfully with the flag still clear, contradicting the
claim (and the comment in `rmdir` that says cache invalidation is handled
in `unlink`). -/
theorem c9_cache_flag_not_set_by_mutations :
    Except.map FSState.cacheInvalidated (createOp stTreeA "/x") = .ok false ∧
    Except.map FSState.cacheInvalidated (unlinkOp stTreeA "/a") = .ok false ∧
    Except.map FSState.cacheInvalidated (mkdirOp stTreeA "/d") = .ok false ∧
    (releaseOp (writeOp stTreeA "/w" "hello" 0) "/w").cacheInvalidated = true := by
  refine ⟨by decide, by decide, by decide, by decide⟩

/-- C10: `rmdir` is definitionally the same operation as `unlink`, and
removing a directory whose mapping is nonempty succeeds, deleting the whole
subtree with no emptiness check. -/
theorem c10_rmdir_is_unlink :
    (∀ (st : FSState) (p : String), rmdirOp st p = unlinkOp st p) ∧
    rmdirOp stDirA "/a" =
      .ok ⟨.map [], [], [], false, false, some "\x7b\x7d\n", .yaml⟩ := by
  refine ⟨fun st p => rfl, by decide⟩

/-- C4: loading a missing backing file yields an empty mapping with only a
warning (the load function is total, so no error propagates), and loading
malformed content yields an empty mapping with the failure logged as an
error rather than raised. -/
theorem c4_load_missing_and_malformed :
    loadYamlModel none = ⟨Val.map [], .warnedMissing⟩ ∧
    (∀ s, safeLoadModel s = none → loadYamlModel (some s) = ⟨Val.map [], .errorParse⟩) := by
  refine ⟨rfl, fun s h => ?_⟩
  simp [loadYamlModel, h]

/-- Witness for C4 at the malformed text consisting of a lone opening
bracket. -/
theorem c4_witness :
    safeLoadModel "[" = none ∧ loadYamlModel (some "[") = ⟨Val.map [], .errorParse⟩ :=
  ⟨by decide, c4_load_missing_and_malformed.2 "[" (by decide)⟩

/-- C6 counterexample: with no ephemeral entry for the hidden path, the read
handler returns empty content instead of failing with NotFound. -/
theorem c6_counterexample :
    isEphemeralPath "/.x" = true ∧ lookupS st0.ephemeralFiles "/.x" = none ∧
    readOp st0 "/.x" 4096 0 = "" := by
  refine ⟨by decide, by decide, by decide⟩

/-- C6 amended: on a hidden path with no ephemeral entry the attribute
lookup fails with NotFound (so the host cannot reach the file), while the
read handler itself returns empty content for any requested range. -/
theorem c6_hidden_read_amended :
    ∀ (st : FSState) (p : String), isEphemeralPath p = true →
      lookupS st.ephemeralFiles p = none →
      getattrOp st p = .error .ENOENT ∧ ∀ size offset, readOp st p size offset = "" := by
  intro st p he hl
  constructor
  · simp [getattrOp, he, hl]
  · intro size offset
    simp [readOp, he, hl, sliceStr]

/-- Witness for C6 at a concrete hidden path on the fresh state. -/
theorem c6_witness :
    getattrOp st0 "/.x" = .error .ENOENT ∧ readOp st0 "/.x" 4096 0 = "" :=
  ⟨(c6_hidden_read_amended st0 "/.x" (by decide) (by decide)).1,
   (c6_hidden_read_amended st0 "/.x" (by decide) (by decide)).2 4096 0⟩

/-- C8: resolving a two-segment path whose first segment is absent from the
root mapping creates the segment as an empty mapping when `create_missing`
is set, returning that new empty mapping as container with the second
segment as key, and fails (the bare not-found result) otherwise. -/
theorem c8_resolve_create_missing :
    ∀ (es : List (String × Val)), lookupF es "a" = none →
      resolvePath (Val.map es) "/a/b" true =
        some (Val.map (es ++ [("a", Val.map [])]), Val.map [], [PathStep.key "a"], some "b") ∧
      resolvePath (Val.map es) "/a/b" false = none := by
  intro es h
  have hroot : isRootPath "/a/b" = false := by decide
  have hparts : pathParts "/a/b" = ["a", "b"] := by decide
  constructor
  · simp [resolvePath, hroot, hparts, resolveGo, h]
  · simp [resolvePath, hroot, hparts, resolveGo, h]

/-- Witness for C8 on a root mapping holding one unrelated key. -/
theorem c8_witness :
    resolvePath (Val.map [("z", Val.int 1)]) "/a/b" true =
      some (Val.map [("z", Val.int 1), ("a", Val.map [])], Val.map [],
        [PathStep.key "a"], some "b") ∧
    resolvePath (Val.map [("z", Val.int 1)]) "/a/b" false = none :=
  ⟨(c8_resolve_create_missing [("z", Val.int 1)] (by decide)).1,
   (c8_resolve_create_missing [("z", Val.int 1)] (by decide)).2⟩

/-- C5 counterexample: descending through a scalar intermediate surfaces
NotFound from `getattr`, not NotDirectory, because `_resolve_path` reports
the same bare failure it uses for missing keys. -/
theorem c5_counterexample :
    resolvePath stScalarA.data "/a/b/c" false = none ∧
    getattrOp stScalarA "/a/b/c" = .error .ENOENT ∧
    Errno.ENOENT ≠ Errno.ENOTDIR := by
  refine ⟨by decide, by decide, by decide⟩

/-- C5 amended: resolution through a scalar intermediate returns the bare
failure used for missing keys (no NotDirectory distinction at resolution);
the attribute lookup surfaces it as NotFound, while the mutating create
handler surfaces the failed resolution as NotDirectory. -/
theorem c5_scalar_descent_amended :
    ∀ (st : FSState) (es : List (String × Val)) (s : Val) (cm : Bool),
      st.data = .map es → lookupF es "a" = some s → isScalarVal s = true →
      resolvePath st.data "/a/b/c" cm = none ∧
      getattrOp st "/a/b/c" = .error .ENOENT ∧
      createOp st "/a/b/c" = .error .ENOTDIR := by
  intro st es s cm hdata hl hs
  have hroot : isRootPath "/a/b/c" = false := by decide
  have hparts : pathParts "/a/b/c" = ["a", "b", "c"] := by decide
  have hres : ∀ cm2, resolvePath st.data "/a/b/c" cm2 = none := by
    intro cm2
    rw [hdata]
    cases s <;> simp_all [isScalarVal, resolvePath, hroot, hparts, resolveGo, hl]
  have he : isEphemeralPath "/a/b/c" = false := by decide
  have h1 : endsList (lit ".json") (String.data "/a/b/c") = false := by decide
  have h2 : endsList (lit ".yaml") (String.data "/a/b/c") = false := by decide
  have h3 : endsList (lit ".yml") (String.data "/a/b/c") = false := by decide
  have hsuf : stripSuffixMode st.defaultMode "/a/b/c" = ("/a/b/c", st.defaultMode) := by
    simp [stripSuffixMode, h1, h2, h3]
  have hslash : (("/a/b/c" : String) == "/") = false := by decide
  refine ⟨hres cm, ?_, ?_⟩
  · simp [getattrOp, he, hsuf, hslash, hres]
  · simp [createOp, he, hsuf, hres]

/-- Witness for C5 at the concrete scalar-valued key. -/
theorem c5_witness :
    resolvePath stScalarA.data "/a/b/c" true = none ∧
    getattrOp stScalarA "/a/b/c" = .error .ENOENT ∧
    createOp stScalarA "/a/b/c" = .error .ENOTDIR := by
  have h := c5_scalar_descent_amended stScalarA [("a", .str "v")] (.str "v") true rfl
    (by decide) (by decide)
  exact ⟨h.1, h.2.1, h.2.2⟩

/-! Supporting lemmas for C2: the dumper introduces no backslash, so a
backslash-n escape can only appear if a backslash is already in the data. -/

theorem noBs_of_all_plain (cs : List Char) (h : cs.all plainChar = true) :
    bslashChar ∉ cs := by
  intro hm
  have hc := List.all_eq_true.mp h _ hm
  have : plainChar bslashChar = false := by decide
  rw [this] at hc
  exact Bool.noConfusion hc

theorem plain_no_char (cs : List Char) (c : Char) (h : cs.all plainChar = true)
    (hc : plainChar c = false) : c ∉ cs := by
  intro hm
  have := List.all_eq_true.mp h _ hm
  rw [hc] at this
  exact Bool.noConfusion this

theorem noBs_mkIndent (j : Nat) : bslashChar ∉ mkIndent j := by
  intro hm
  have := List.eq_of_mem_replicate hm
  exact absurd this (by decide)

theorem plainSafe_all (cs : List Char) (h : plainSafeTxt cs = true) :
    cs.all plainChar = true := by
  unfold plainSafeTxt at h
  cases hc : cs.head? with
  | none => rw [hc] at h; exact Bool.noConfusion h
  | some c =>
      rw [hc] at h
      simp only [Bool.and_eq_true] at h
      exact h.1.1.1.1.2

theorem plain_no_nl (cs : List Char) (h : plainSafeTxt cs = true) : '\n' ∉ cs :=
  plain_no_char cs '\n' (plainSafe_all cs h) (by decide)

theorem noNl_stripTrailing (cs : List Char) (h : '\n' ∉ cs) :
    stripTrailingNl cs = cs := by
  unfold stripTrailingNl
  have hd : cs.reverse.dropWhile (fun c => c == '\n') = cs.reverse := by
    cases hrev : cs.reverse with
    | nil => rfl
    | cons a as =>
        have ha : a ∈ cs := by
          rw [← List.mem_reverse, hrev]
          exact List.mem_cons_self a as
        have hne : (a == '\n') = false := by
          cases hq : (a == '\n') with
          | false => rfl
          | true =>
              rw [beq_iff_eq.mp hq] at ha
              exact absurd ha h
        simp [List.dropWhile_cons, hne]
  rw [hd, List.reverse_reverse]

theorem noNl_multilineCore (cs : List Char) (h : '\n' ∉ cs) :
    multilineCore cs = false := by
  unfold multilineCore
  rw [noNl_stripTrailing cs h]
  have hc : cs.contains '\n' = false := by simpa using h
  simp [hc]
  intro hmem
  exact absurd hmem h

theorem plainSafe_getLast (cs : List Char) (h : plainSafeTxt cs = true) :
    (cs.getLast? == some ' ') = false := by
  unfold plainSafeTxt at h
  cases hc : cs.head? with
  | none => rw [hc] at h; exact Bool.noConfusion h
  | some c =>
      rw [hc] at h
      simp only [Bool.and_eq_true] at h
      have hd := h.1.1.1.2
      cases hq : (cs.getLast? == some ' ') with
      | false => rfl
      | true =>
          rw [bne, hq] at hd
          exact Bool.noConfusion hd

theorem inlineStr_plain (s : String) (h : plainSafeTxt s.data = true) :
    inlineStrTxt s = s.data := by
  have hml : multilineCore s.data = false :=
    noNl_multilineCore s.data (plain_no_nl s.data h)
  have hlast : (s.data.getLast? == some ' ') = false := plainSafe_getLast s.data h
  unfold inlineStrTxt representScalarStyle
  simp [hml, hlast, h]

theorem renderKey_plain (k : String) (h : plainSafeTxt k.data = true) :
    renderKeyTxt k = k.data := by
  have hml : multilineCore k.data = false :=
    noNl_multilineCore k.data (plain_no_nl k.data h)
  unfold renderKeyTxt
  rw [hml, inlineStr_plain k h]
  simp

theorem natDigitChar_isDigit (d : Nat) (h : d < 10) : (natDigitChar d).isDigit = true := by
  interval_cases d <;> decide

theorem natDigitsF_digits : ∀ f n, (natDigitsF f n).all Char.isDigit = true := by
  intro f
  induction f with
  | zero => intro n; rfl
  | succ f ih =>
      intro n
      unfold natDigitsF
      by_cases h : n < 10
      · simp [h, natDigitChar_isDigit n h]
      · have h10 : n % 10 < 10 := Nat.mod_lt n (by omega)
        simp [h, List.all_append, ih (n / 10), natDigitChar_isDigit _ h10]

theorem noBs_intTxt (n : Int) : bslashChar ∉ intTxt n := by
  have hdig : ∀ m, bslashChar ∉ natDigits m := by
    intro m hm
    have := List.all_eq_true.mp (natDigitsF_digits (m + 1) m) _ hm
    exact absurd this (by decide)
  unfold intTxt
  by_cases h : n < 0
  · simp only [h, if_pos]
    intro hm
    rcases List.mem_cons.mp hm with h1 | h2
    · exact absurd h1 (by decide)
    · exact hdig _ h2
  · simp only [h, if_neg]
    exact hdig _

theorem splitOnChar_ne_nil (sep : Char) : ∀ cs, splitOnChar sep cs ≠ [] := by
  intro cs
  induction cs with
  | nil => simp [splitOnChar]
  | cons c rest ih =>
      unfold splitOnChar
      by_cases h : (c == sep) = true
      · simp [h]
      · simp only [h]
        cases hr : splitOnChar sep rest with
        | nil => exact absurd hr ih
        | cons l ls => simp

theorem mem_splitOnChar_sub (sep : Char) :
    ∀ cs l c, l ∈ splitOnChar sep cs → c ∈ l → c ∈ cs := by
  intro cs
  induction cs with
  | nil =>
      intro l c hl hc
      simp [splitOnChar] at hl
      rw [hl] at hc
      exact absurd hc (List.not_mem_nil c)
  | cons c0 rest ih =>
      intro l c hl hc
      unfold splitOnChar at hl
      by_cases h : (c0 == sep) = true
      · rw [if_pos h] at hl
        rcases List.mem_cons.mp hl with h1 | h2
        · rw [h1] at hc
          exact absurd hc (List.not_mem_nil c)
        · exact List.mem_cons_of_mem c0 (ih l c h2 hc)
      · rw [if_neg h] at hl
        cases hr : splitOnChar sep rest with
        | nil => exact absurd hr (splitOnChar_ne_nil sep rest)
        | cons l0 ls =>
            rw [hr] at hl
            rcases List.mem_cons.mp hl with h1 | h2
            · rw [h1] at hc
              rcases List.mem_cons.mp hc with hh | hh
              · rw [hh]; exact List.mem_cons_self c0 rest
              · have : c ∈ l0 ∨ c ∈ rest := Or.inl hh
                have hmem : l0 ∈ splitOnChar sep rest := by rw [hr]; exact List.mem_cons_self l0 ls
                exact List.mem_cons_of_mem c0 (ih l0 c hmem hh)
            · have hmem : l ∈ splitOnChar sep rest := by rw [hr]; exact List.mem_cons_of_mem l0 h2
              exact List.mem_cons_of_mem c0 (ih l c hmem hc)

theorem mem_dropWhile_sub {α : Type} (p : α → Bool) :
    ∀ (l : List α) (c : α), c ∈ l.dropWhile p → c ∈ l := by
  intro l
  induction l with
  | nil => intro c hc; simp [List.dropWhile] at hc
  | cons a as ih =>
      intro c hc
      rw [List.dropWhile_cons] at hc
      by_cases h : p a = true
      · rw [if_pos h] at hc
        exact List.mem_cons_of_mem a (ih c hc)
      · rw [if_neg h] at hc
        exact hc

theorem mem_stripTrailingNl_sub (cs : List Char) (c : Char) :
    c ∈ stripTrailingNl cs → c ∈ cs := by
  intro hc
  unfold stripTrailingNl at hc
  rw [List.mem_reverse] at hc
  have := mem_dropWhile_sub _ _ _ hc
  rw [List.mem_reverse] at this
  exact this

theorem noBs_blockHeader (s : String) : bslashChar ∉ blockHeaderTxt s := by
  unfold blockHeaderTxt
  by_cases h0 : (countTrailingNl s.data == 0) = true
  · simp only [h0, if_pos]; decide
  · simp only [h0]
    by_cases h1 : (countTrailingNl s.data == 1) = true
    · simp only [h1, if_pos]; decide
    · simp only [h1, if_neg]; decide

theorem noBs_blockBody (ind : Nat) (s : String) (h : bslashChar ∉ s.data) :
    ∀ l, l ∈ blockBodyLines ind s → bslashChar ∉ l := by
  intro l hl
  unfold blockBodyLines at hl
  rcases List.mem_append.mp hl with h1 | h2
  · rcases List.mem_map.mp h1 with ⟨l0, hl0, heq⟩
    rw [← heq]
    intro hm
    rcases List.mem_append.mp hm with hma | hmb
    · exact noBs_mkIndent ind hma
    · exact h (mem_stripTrailingNl_sub s.data _ (mem_splitOnChar_sub '\n' _ l0 _ hl0 hmb))
  · have := List.eq_of_mem_replicate h2
    rw [this]
    exact List.not_mem_nil bslashChar

theorem noBs_inline_goodStr (s : String) (hg : goodStrTxt s.data = true)
    (hml : multilineCore s.data = false) : bslashChar ∉ inlineStrTxt s := by
  have hp : plainSafeTxt s.data = true := by
    unfold goodStrTxt at hg
    rw [hml] at hg
    simp at hg
    exact hg.2
  rw [inlineStr_plain s hp]
  exact noBs_of_all_plain _ (plainSafe_all _ hp)

theorem noBs_append4 (j : Nat) (a b c : List Char) (ha : bslashChar ∉ a)
    (hb : bslashChar ∉ b) (hc : bslashChar ∉ c) :
    bslashChar ∉ mkIndent j ++ a ++ b ++ c := by
  intro hm
  rcases List.mem_append.mp hm with hm1 | hm1
  · rcases List.mem_append.mp hm1 with hm2 | hm2
    · rcases List.mem_append.mp hm2 with hm3 | hm3
      · exact noBs_mkIndent j hm3
      · exact ha hm3
    · exact hb hm2
  · exact hc hm1

theorem noBs_append2 (j : Nat) (a : List Char) (ha : bslashChar ∉ a) :
    bslashChar ∉ mkIndent j ++ a := by
  intro hm
  rcases List.mem_append.mp hm with hm1 | hm1
  · exact noBs_mkIndent j hm1
  · exact ha hm1

theorem noBs_renderEntry (j : Nat) (k : String) (v : Val)
    (hk : plainSafeTxt k.data = true) (hv : stableB v = true)
    (IHv : ∀ j2 l, l ∈ renderVal j2 v → bslashChar ∉ l) :
    ∀ l, l ∈ renderEntry j k v → bslashChar ∉ l := by
  intro l hl
  have hkr : renderKeyTxt k = k.data := renderKey_plain k hk
  have hkbs : bslashChar ∉ k.data := noBs_of_all_plain _ (plainSafe_all _ hk)
  cases v with
  | str s =>
      have hg : goodStrTxt s.data = true := hv
      by_cases hml : multilineCore s.data = true
      · have hgm : goodMultilineTxt s.data = true := goodStr_multiline s hg hml
        have hbsb : blockStyleB s.data = true :=
          blockStyleB_of_allow _ hml (goodMultiline_parts _ hgm).2.2.2.2.2
        rw [renderEntry] at hl
        simp only [hkr, hbsb, if_pos] at hl
        rcases List.mem_cons.mp hl with h1 | h2
        · rw [h1]
          exact noBs_append4 j k.data (lit ": ") (blockHeaderTxt s) hkbs (by decide)
            (noBs_blockHeader s)
        · have hbs : bslashChar ∉ s.data := by
            have hc := (goodMultiline_parts _ hgm).2.2.2.2.1
            simpa using hc
          exact noBs_blockBody (j + 2) s hbs l h2
      · rw [renderEntry] at hl
        have hml' : multilineCore s.data = false := by
          cases hq : multilineCore s.data with
          | false => rfl
          | true => exact absurd hq hml
        simp only [hkr, blockStyleB_false _ hml', Bool.false_eq_true, if_false] at hl
        have h1 := List.mem_singleton.mp hl
        rw [h1]
        exact noBs_append4 j k.data (lit ": ") (inlineStrTxt s) hkbs (by decide)
          (noBs_inline_goodStr s hg hml')
  | int n =>
      have hl2 : l ∈ [mkIndent j ++ renderKeyTxt k ++ lit ": " ++ atomTxt (.int n)] := hl
      have h1 := List.mem_singleton.mp hl2
      rw [h1, hkr]
      exact noBs_append4 j k.data (lit ": ") (atomTxt (.int n)) hkbs (by decide)
        (noBs_intTxt n)
  | bool b =>
      have hl2 : l ∈ [mkIndent j ++ renderKeyTxt k ++ lit ": " ++ atomTxt (.bool b)] := hl
      have h1 := List.mem_singleton.mp hl2
      rw [h1, hkr]
      cases b
      · exact noBs_append4 j k.data (lit ": ") (atomTxt (.bool false)) hkbs (by decide) (by decide)
      · exact noBs_append4 j k.data (lit ": ") (atomTxt (.bool true)) hkbs (by decide) (by decide)
  | null =>
      have hl2 : l ∈ [mkIndent j ++ renderKeyTxt k ++ lit ": " ++ atomTxt .null] := hl
      have h1 := List.mem_singleton.mp hl2
      rw [h1, hkr]
      exact noBs_append4 j k.data (lit ": ") (atomTxt .null) hkbs (by decide) (by decide)
  | map es2 =>
      cases es2 with
      | nil =>
          rw [renderEntry] at hl
          simp only [hkr] at hl
          have h1 := List.mem_singleton.mp hl
          rw [h1]
          intro hm
          rcases List.mem_append.mp hm with hm1 | hm1
          · rcases List.mem_append.mp hm1 with hm2 | hm2
            · exact noBs_mkIndent j hm2
            · exact hkbs hm2
          · exact absurd hm1 (by decide)
      | cons e es3 =>
          rw [renderEntry] at hl
          simp only [hkr] at hl
          rcases List.mem_cons.mp hl with h1 | h2
          · rw [h1]
            intro hm
            rcases List.mem_append.mp hm with hm1 | hm1
            · rcases List.mem_append.mp hm1 with hm2 | hm2
              · exact noBs_mkIndent j hm2
              · exact hkbs hm2
            · exact absurd hm1 (by decide)
          · have : l ∈ renderVal (j + 2) (.map (e :: es3)) := by
              rw [renderVal]
              exact h2
            exact IHv (j + 2) l this
  | seq xs =>
      cases xs with
      | nil =>
          rw [renderEntry] at hl
          simp only [hkr] at hl
          have h1 := List.mem_singleton.mp hl
          rw [h1]
          intro hm
          rcases List.mem_append.mp hm with hm1 | hm1
          · rcases List.mem_append.mp hm1 with hm2 | hm2
            · exact noBs_mkIndent j hm2
            · exact hkbs hm2
          · exact absurd hm1 (by decide)
      | cons x xs2 =>
          rw [renderEntry] at hl
          simp only [hkr] at hl
          rcases List.mem_cons.mp hl with h1 | h2
          · rw [h1]
            intro hm
            rcases List.mem_append.mp hm with hm1 | hm1
            · rcases List.mem_append.mp hm1 with hm2 | hm2
              · exact noBs_mkIndent j hm2
              · exact hkbs hm2
            · exact absurd hm1 (by decide)
          · have : l ∈ renderVal j (.seq (x :: xs2)) := by
              rw [renderVal]
              exact h2
            exact IHv j l this

theorem noBs_renderItem (j : Nat) (v : Val) (hv : stableB v = true)
    (IHv : ∀ j2 l, l ∈ renderVal j2 v → bslashChar ∉ l) :
    ∀ l, l ∈ renderItem j v → bslashChar ∉ l := by
  intro l hl
  cases v with
  | str s =>
      have hg : goodStrTxt s.data = true := hv
      by_cases hml : multilineCore s.data = true
      · have hgm : goodMultilineTxt s.data = true := goodStr_multiline s hg hml
        have hbsb : blockStyleB s.data = true :=
          blockStyleB_of_allow _ hml (goodMultiline_parts _ hgm).2.2.2.2.2
        rw [renderItem] at hl
        simp only [hbsb, if_pos] at hl
        rcases List.mem_cons.mp hl with h1 | h2
        · rw [h1]
          intro hm
          rcases List.mem_append.mp hm with hm1 | hm1
          · rcases List.mem_append.mp hm1 with hm2 | hm2
            · exact noBs_mkIndent j hm2
            · exact absurd hm2 (by decide)
          · exact noBs_blockHeader s hm1
        · have hbs : bslashChar ∉ s.data := by
            have hc := (goodMultiline_parts _ hgm).2.2.2.2.1
            simpa using hc
          exact noBs_blockBody (j + 2) s hbs l h2
      · rw [renderItem] at hl
        have hml' : multilineCore s.data = false := by
          cases hq : multilineCore s.data with
          | false => rfl
          | true => exact absurd hq hml
        simp only [blockStyleB_false _ hml', Bool.false_eq_true, if_false] at hl
        have h1 := List.mem_singleton.mp hl
        rw [h1]
        intro hm
        rcases List.mem_append.mp hm with hm1 | hm1
        · rcases List.mem_append.mp hm1 with hm2 | hm2
          · exact noBs_mkIndent j hm2
          · exact absurd hm2 (by decide)
        · exact noBs_inline_goodStr s hg hml' hm1
  | int n =>
      have hl2 : l ∈ [mkIndent j ++ lit "- " ++ atomTxt (.int n)] := hl
      have h1 := List.mem_singleton.mp hl2
      rw [h1]
      intro hm
      rcases List.mem_append.mp hm with hm1 | hm1
      · rcases List.mem_append.mp hm1 with hm2 | hm2
        · exact noBs_mkIndent j hm2
        · exact absurd hm2 (by decide)
      · exact noBs_intTxt n hm1
  | bool b =>
      have hl2 : l ∈ [mkIndent j ++ lit "- " ++ atomTxt (.bool b)] := hl
      have h1 := List.mem_singleton.mp hl2
      rw [h1]
      intro hm
      rcases List.mem_append.mp hm with hm1 | hm1
      · rcases List.mem_append.mp hm1 with hm2 | hm2
        · exact noBs_mkIndent j hm2
        · exact absurd hm2 (by decide)
      · cases b
        · exact absurd hm1 (by decide)
        · exact absurd hm1 (by decide)
  | null =>
      have hl2 : l ∈ [mkIndent j ++ lit "- " ++ atomTxt .null] := hl
      have h1 := List.mem_singleton.mp hl2
      rw [h1]
      intro hm
      rcases List.mem_append.mp hm with hm1 | hm1
      · rcases List.mem_append.mp hm1 with hm2 | hm2
        · exact noBs_mkIndent j hm2
        · exact absurd hm2 (by decide)
      · exact absurd hm1 (by decide)
  | map es2 =>
      cases es2 with
      | nil =>
          have hl2 : l ∈ [mkIndent j ++ lit "- \x7b\x7d"] := hl
          have h1 := List.mem_singleton.mp hl2
          rw [h1]
          intro hm
          rcases List.mem_append.mp hm with hm1 | hm1
          · exact noBs_mkIndent j hm1
          · exact absurd hm1 (by decide)
      | cons e es3 =>
          rw [renderItem] at hl
          have hsub : ∀ l2, l2 ∈ renderEntries (j + 2) (e :: es3) → bslashChar ∉ l2 := by
            intro l2 hl2
            have : l2 ∈ renderVal (j + 2) (.map (e :: es3)) := by rw [renderVal]; exact hl2
            exact IHv (j + 2) l2 this
          cases hr : renderEntries (j + 2) (e :: es3) with
          | nil => rw [hr] at hl; unfold dashFirst at hl; exact absurd hl (List.not_mem_nil l)
          | cons l0 restL =>
              rw [hr] at hl
              unfold dashFirst at hl
              rcases List.mem_cons.mp hl with h1 | h2
              · rw [h1]
                intro hm
                rcases List.mem_append.mp hm with hm1 | hm1
                · exact noBs_mkIndent j hm1
                · rcases List.mem_cons.mp hm1 with hm2 | hm2
                  · exact absurd hm2 (by decide)
                  · rcases List.mem_cons.mp hm2 with hm3 | hm3
                    · exact absurd hm3 (by decide)
                    · have hl0 : l0 ∈ renderEntries (j + 2) (e :: es3) := by
                        rw [hr]; exact List.mem_cons_self l0 restL
                      exact hsub l0 hl0 (List.drop_subset (j + 2) l0 hm3)
              · have : l ∈ renderEntries (j + 2) (e :: es3) := by
                  rw [hr]; exact List.mem_cons_of_mem l0 h2
                exact hsub l this
  | seq xs =>
      cases xs with
      | nil =>
          have hl2 : l ∈ [mkIndent j ++ lit "- []"] := hl
          have h1 := List.mem_singleton.mp hl2
          rw [h1]
          intro hm
          rcases List.mem_append.mp hm with hm1 | hm1
          · exact noBs_mkIndent j hm1
          · exact absurd hm1 (by decide)
      | cons x xs2 =>
          rw [renderItem] at hl
          have hsub : ∀ l2, l2 ∈ renderItems (j + 2) (x :: xs2) → bslashChar ∉ l2 := by
            intro l2 hl2
            have : l2 ∈ renderVal (j + 2) (.seq (x :: xs2)) := by rw [renderVal]; exact hl2
            exact IHv (j + 2) l2 this
          cases hr : renderItems (j + 2) (x :: xs2) with
          | nil => rw [hr] at hl; unfold dashFirst at hl; exact absurd hl (List.not_mem_nil l)
          | cons l0 restL =>
              rw [hr] at hl
              unfold dashFirst at hl
              rcases List.mem_cons.mp hl with h1 | h2
              · rw [h1]
                intro hm
                rcases List.mem_append.mp hm with hm1 | hm1
                · exact noBs_mkIndent j hm1
                · rcases List.mem_cons.mp hm1 with hm2 | hm2
                  · exact absurd hm2 (by decide)
                  · rcases List.mem_cons.mp hm2 with hm3 | hm3
                    · exact absurd hm3 (by decide)
                    · have hl0 : l0 ∈ renderItems (j + 2) (x :: xs2) := by
                        rw [hr]; exact List.mem_cons_self l0 restL
                      exact hsub l0 hl0 (List.drop_subset (j + 2) l0 hm3)
              · have : l ∈ renderItems (j + 2) (x :: xs2) := by
                  rw [hr]; exact List.mem_cons_of_mem l0 h2
                exact hsub l this

theorem noBs_renderVal :
    ∀ v, stableB v = true → ∀ j l, l ∈ renderVal j v → bslashChar ∉ l := by
  intro v
  induction v using valInduction with
  | hstr s =>
      intro h j l hl
      have hg : goodStrTxt s.data = true := h
      by_cases hml : multilineCore s.data = true
      · have hgm : goodMultilineTxt s.data = true := goodStr_multiline s hg hml
        have hbsb : blockStyleB s.data = true :=
          blockStyleB_of_allow _ hml (goodMultiline_parts _ hgm).2.2.2.2.2
        rw [renderVal] at hl
        simp only [hbsb, if_pos] at hl
        rcases List.mem_cons.mp hl with h1 | h2
        · rw [h1]
          intro hm
          rcases List.mem_append.mp hm with hm1 | hm1
          · exact noBs_mkIndent j hm1
          · exact noBs_blockHeader s hm1
        · have hbs : bslashChar ∉ s.data := by
            have hc := (goodMultiline_parts _ hgm).2.2.2.2.1
            simpa using hc
          exact noBs_blockBody (j + 2) s hbs l h2
      · rw [renderVal] at hl
        have hml' : multilineCore s.data = false := by
          cases hq : multilineCore s.data with
          | false => rfl
          | true => exact absurd hq hml
        simp only [blockStyleB_false _ hml', Bool.false_eq_true, if_false] at hl
        have h1 := List.mem_singleton.mp hl
        rw [h1]
        exact noBs_append2 j (inlineStrTxt s) (noBs_inline_goodStr s hg hml')
  | hint n =>
      intro _ j l hl
      have hl2 : l ∈ [mkIndent j ++ atomTxt (.int n)] := hl
      have h1 := List.mem_singleton.mp hl2
      rw [h1]
      exact noBs_append2 j (atomTxt (.int n)) (noBs_intTxt n)
  | hbool b =>
      intro _ j l hl
      have hl2 : l ∈ [mkIndent j ++ atomTxt (.bool b)] := hl
      have h1 := List.mem_singleton.mp hl2
      rw [h1]
      cases b
      · exact noBs_append2 j (atomTxt (.bool false)) (by decide)
      · exact noBs_append2 j (atomTxt (.bool true)) (by decide)
  | hnull =>
      intro _ j l hl
      have hl2 : l ∈ [mkIndent j ++ atomTxt .null] := hl
      have h1 := List.mem_singleton.mp hl2
      rw [h1]
      exact noBs_append2 j (atomTxt .null) (by decide)
  | hmap es IH =>
      intro h j l hl
      cases es with
      | nil =>
          have hl2 : l ∈ [mkIndent j ++ lit "\x7b\x7d"] := hl
          have h1 := List.mem_singleton.mp hl2
          rw [h1]
          exact noBs_append2 j (lit "\x7b\x7d") (by decide)
      | cons e rest =>
          have hfs : stableFieldsB (e :: rest) = true := h
          have hl2 : l ∈ renderEntries j (e :: rest) := by
            rw [renderVal] at hl; exact hl
          clear hl
          revert hl2
          -- walk the entry list, peeling entries
          have main : ∀ (es2 : List (String × Val)),
              (∀ kv, kv ∈ es2 → kv ∈ (e :: rest)) →
              stableFieldsB es2 = true →
              ∀ l2, l2 ∈ renderEntries j es2 → bslashChar ∉ l2 := by
            intro es2
            induction es2 with
            | nil => intro _ _ l2 hl2; simp [renderEntries] at hl2
            | cons kv rest2 ih2 =>
                obtain ⟨k, v⟩ := kv
                intro hmem hs l2 hl2
                have hs' : plainSafeTxt k.data = true ∧ stableB v = true ∧
                    stableFieldsB rest2 = true := by
                  simpa [stableFieldsB, Bool.and_eq_true, and_assoc] using hs
                rw [renderEntries] at hl2
                rcases List.mem_append.mp hl2 with hE | hR
                · have hkv : (k, v) ∈ (e :: rest) := hmem (k, v) (List.mem_cons_self _ _)
                  exact noBs_renderEntry j k v hs'.1 hs'.2.1
                    (fun j2 l3 hl3 => IH (k, v) hkv hs'.2.1 j2 l3 hl3) l2 hE
                · exact ih2 (fun kv2 h2 => hmem kv2 (List.mem_cons_of_mem _ h2)) hs'.2.2 l2 hR
          exact main (e :: rest) (fun kv hkv => hkv) hfs l
  | hseq xs IH =>
      intro h j l hl
      cases xs with
      | nil =>
          have hl2 : l ∈ [mkIndent j ++ lit "[]"] := hl
          have h1 := List.mem_singleton.mp hl2
          rw [h1]
          exact noBs_append2 j (lit "[]") (by decide)
      | cons x rest =>
          have hxs : stableItemsB (x :: rest) = true := h
          have hl2 : l ∈ renderItems j (x :: rest) := by
            rw [renderVal] at hl; exact hl
          clear hl
          revert hl2
          have main : ∀ (xs2 : List Val),
              (∀ y, y ∈ xs2 → y ∈ (x :: rest)) →
              stableItemsB xs2 = true →
              ∀ l2, l2 ∈ renderItems j xs2 → bslashChar ∉ l2 := by
            intro xs2
            induction xs2 with
            | nil => intro _ _ l2 hl2; simp [renderItems] at hl2
            | cons y rest2 ih2 =>
                intro hmem hs l2 hl2
                have hs' : stableB y = true ∧ stableItemsB rest2 = true := by
                  simpa [stableItemsB, Bool.and_eq_true] using hs
                rw [renderItems] at hl2
                rcases List.mem_append.mp hl2 with hE | hR
                · have hy : y ∈ (x :: rest) := hmem y (List.mem_cons_self _ _)
                  exact noBs_renderItem j y hs'.1
                    (fun j2 l3 hl3 => IH y hy hs'.1 j2 l3 hl3) l2 hE
                · exact ih2 (fun y2 h2 => hmem y2 (List.mem_cons_of_mem _ h2)) hs'.2 l2 hR
          exact main (x :: rest) (fun y hy => hy) hxs l

theorem hasSub_false_of_not_mem (c : Char) (p : List Char) :
    ∀ l : List Char, c ∉ l → hasSub (c :: p) l = false := by
  intro l
  induction l with
  | nil => intro _; rfl
  | cons a as ih =>
      intro h
      have hca : (c == a) = false := by
        cases hq : (c == a) with
        | false => rfl
        | true =>
            rw [beq_iff_eq.mp hq] at h
            exact absurd (List.mem_cons_self a as) h
      unfold hasSub
      rw [startsList, hca]
      simp only [Bool.false_and, Bool.false_or]
      exact ih (fun hm => h (List.mem_cons_of_mem a hm))

/-- C2 counterexample: the universal claim fails.  The string "a \nb" is
multiline (two lines after stripping trailing newlines), yet `analyze_scalar`
refuses block style for it (a space stands before the break), so
`choose_scalar_style` — the single-quote branch being skipped for the
explicit `|` style — emits a double-quoted single line, and the serialized
mapping contains a line with a literal backslash-n sequence. -/
theorem c2_counterexample :
    multilineCore (String.data "a \nb") = true ∧
    representScalarStyle "a \nb" = .doubleQuoted ∧
    ((renderDoc (.map [("k", .str "a \nb")])).any
      (fun l => hasSub [bslashChar, 'n'] l)) = true :=
  ⟨by decide, by decide, by decide⟩

/-- C2 (amended): the dumper chooses literal block style for every multiline
string that the scalar analyzer allows in block form (no trailing space, no
space before a break, no special characters), and on serialization-stable
mappings no output line contains a literal backslash-n sequence (the
inline-escaped form).  The claim as stated, for every multiline string, is
refuted by `c2_counterexample`: with a space before a newline the emitter
falls back to a double-quoted single line. -/
theorem c2_multiline_block_style_amended :
    (∀ s : String, multilineCore s.data = true → allowBlock s.data = true →
      representScalarStyle s = .literal) ∧
    (∀ es, stableB (.map es) = true → ∀ l, l ∈ renderDoc (.map es) →
      hasSub [bslashChar, 'n'] l = false) := by
  constructor
  · intro s h hab
    unfold representScalarStyle
    rw [h, hab]
    rfl
  · intro es hs l hl
    have hdoc : renderDoc (.map es) = renderVal 0 (.map es) := rfl
    rw [hdoc] at hl
    exact hasSub_false_of_not_mem bslashChar ['n'] l (noBs_renderVal (.map es) hs 0 l hl)

/-- Witness for the amended C2 at a concrete two-line string inside a
mapping. -/
theorem c2_witness :
    representScalarStyle "a\nb" = .literal ∧
    hasSub [bslashChar, 'n'] (lit "k: |-") = false :=
  ⟨c2_multiline_block_style_amended.1 "a\nb" (by decide) (by decide),
   c2_multiline_block_style_amended.2 [("k", .str "a\nb")] (by decide) (lit "k: |-")
     (by decide)⟩

/-! Line utilities for the round-trip development. -/

theorem indentOf_mk (j : Nat) (c : List Char)
    (h : ∀ hc, c.head? = some hc → (hc == ' ') = false) :
    indentOf (mkIndent j ++ c) = j := by
  induction j with
  | zero =>
      cases c with
      | nil => rfl
      | cons hc t =>
          have hh := h hc rfl
          simp [mkIndent, indentOf, List.takeWhile_cons, hh]
  | succ j ih =>
      have hmk : mkIndent (j + 1) = ' ' :: mkIndent j := by
        simp [mkIndent, List.replicate_succ]
      rw [hmk]
      unfold indentOf
      rw [List.cons_append, List.takeWhile_cons]
      simp only [beq_self_eq_true, if_true, List.length_cons]
      unfold indentOf at ih
      omega

theorem contentOf_mk (j : Nat) (c : List Char)
    (h : ∀ hc, c.head? = some hc → (hc == ' ') = false) :
    contentOf (mkIndent j ++ c) = c := by
  induction j with
  | zero =>
      cases c with
      | nil => rfl
      | cons hc t =>
          have hh := h hc rfl
          simp [mkIndent, contentOf, List.dropWhile_cons, hh]
  | succ j ih =>
      have hmk : mkIndent (j + 1) = ' ' :: mkIndent j := by
        simp [mkIndent, List.replicate_succ]
      rw [hmk]
      unfold contentOf
      rw [List.cons_append, List.dropWhile_cons]
      simp only [beq_self_eq_true, if_true]
      exact ih

theorem head_append_ne_nil {l1 l2 : List Char} (h : l1 ≠ []) :
    (l1 ++ l2).head? = l1.head? := by
  cases l1 with
  | nil => exact absurd rfl h
  | cons a t => rfl

theorem alpha_underscore_cases (c d : Char) (hcls : (c.isAlpha || c == '_') = true)
    (hda : d.isAlpha = false) (hdu : (d == '_') = false) : (c == d) = false := by
  cases hq : (c == d) with
  | false => rfl
  | true =>
      have he : c = d := beq_iff_eq.mp hq
      rw [he] at hcls
      have hcls2 : d.isAlpha = true ∨ d = '_' := by simpa using hcls
      rcases hcls2 with h | h
      · rw [h] at hda; exact Bool.noConfusion hda
      · rw [h] at hdu; simp at hdu

theorem plainSafe_parts (cs : List Char) (h : plainSafeTxt cs = true) :
    ∃ c, cs.head? = some c ∧ (c.isAlpha || c == '_') = true ∧
      cs.all plainChar = true ∧ (cs.getLast? == some ' ') = false ∧
      (trueLits.contains cs) = false ∧ (falseLits.contains cs) = false ∧
      (nullLits.contains cs) = false := by
  unfold plainSafeTxt at h
  cases hc : cs.head? with
  | none => rw [hc] at h; exact Bool.noConfusion h
  | some c =>
      rw [hc] at h
      simp only [Bool.and_eq_true] at h
      refine ⟨c, rfl, h.1.1.1.1.1, h.1.1.1.1.2, plainSafe_getLast cs ?_, ?_, ?_, ?_⟩
      · unfold plainSafeTxt
        rw [hc]
        simp only [Bool.and_eq_true]
        exact h
      · have h2 := h.1.1.2
        cases hq : trueLits.contains cs with
        | false => rfl
        | true => rw [hq] at h2; exact Bool.noConfusion h2
      · have h2 := h.1.2
        cases hq : falseLits.contains cs with
        | false => rfl
        | true => rw [hq] at h2; exact Bool.noConfusion h2
      · have h2 := h.2
        cases hq : nullLits.contains cs with
        | false => rfl
        | true => rw [hq] at h2; exact Bool.noConfusion h2

theorem beq_false_symm (c d : Char) (h : (c == d) = false) : (d == c) = false := by
  cases hq : (d == c) with
  | false => rfl
  | true =>
      rw [beq_iff_eq.mp hq] at h
      simp at h

theorem isDashItem_false_head (t : List Char) (c : Char) (hc : t.head? = some c)
    (hne : ('-' == c) = false) : isDashItem t = false := by
  cases t with
  | nil => rfl
  | cons c0 rest =>
      have hc0 : c0 = c := by simpa using hc
      rw [hc0]
      show startsList (lit "- ") (c :: rest) = false
      have hl : lit "- " = '-' :: [' '] := rfl
      rw [hl]
      unfold startsList
      rw [hne]
      simp

theorem renderEntry_ne_nil (j : Nat) (k : String) (v : Val) : renderEntry j k v ≠ [] := by
  cases v with
  | str s =>
      by_cases hbs : blockStyleB s.data = true
      · rw [renderEntry]
        simp [hbs]
      · rw [renderEntry]
        simp [blockStyleB_false_of_not _ hbs]
  | int n => exact List.cons_ne_nil _ _
  | bool b => exact List.cons_ne_nil _ _
  | null => exact List.cons_ne_nil _ _
  | map es =>
      cases es with
      | nil => exact List.cons_ne_nil _ _
      | cons e es2 => exact List.cons_ne_nil _ _
  | seq xs =>
      cases xs with
      | nil => exact List.cons_ne_nil _ _
      | cons x xs2 => exact List.cons_ne_nil _ _

theorem renderEntries_ne_nil (j : Nat) (es : List (String × Val)) (hne : es ≠ []) :
    renderEntries j es ≠ [] := by
  cases es with
  | nil => exact absurd rfl hne
  | cons e es2 =>
      rw [renderEntries]
      intro h
      rcases List.append_eq_nil.mp h with ⟨h1, _⟩
      exact renderEntry_ne_nil j e.1 e.2 h1

theorem renderItem_ne_nil : ∀ v : Val, ∀ j, renderItem j v ≠ [] := by
  apply valInduction (P := fun v => ∀ j, renderItem j v ≠ [])
  · intro s j
    by_cases hbs : blockStyleB s.data = true
    · rw [renderItem]
      simp [hbs]
    · rw [renderItem]
      simp [blockStyleB_false_of_not _ hbs]
  · intro n j
    exact List.cons_ne_nil _ _
  · intro b j
    exact List.cons_ne_nil _ _
  · intro j
    exact List.cons_ne_nil _ _
  · intro es _ j
    cases es with
    | nil => exact List.cons_ne_nil _ _
    | cons e es2 =>
        show dashFirst j (renderEntries (j + 2) (e :: es2)) ≠ []
        have hne := renderEntries_ne_nil (j + 2) (e :: es2) (by simp)
        cases hq : renderEntries (j + 2) (e :: es2) with
        | nil => exact absurd hq hne
        | cons a t => exact List.cons_ne_nil _ _
  · intro xs IH j
    cases xs with
    | nil => exact List.cons_ne_nil _ _
    | cons x xs2 =>
        show dashFirst j (renderItems (j + 2) (x :: xs2)) ≠ []
        have hne : renderItems (j + 2) (x :: xs2) ≠ [] := by
          rw [renderItems]
          intro h
          rcases List.append_eq_nil.mp h with ⟨h1, _⟩
          exact IH x (List.mem_cons_self _ _) (j + 2) h1
        cases hq : renderItems (j + 2) (x :: xs2) with
        | nil => exact absurd hq hne
        | cons a t => exact List.cons_ne_nil _ _

theorem renderItems_ne_nil (j : Nat) (xs : List Val) (hne : xs ≠ []) :
    renderItems j xs ≠ [] := by
  cases xs with
  | nil => exact absurd rfl hne
  | cons x xs2 =>
      rw [renderItems]
      intro h
      rcases List.append_eq_nil.mp h with ⟨h1, _⟩
      exact renderItem_ne_nil x j h1

theorem renderEntry_head (j : Nat) (k : String) (v : Val) :
    ∃ t, (renderEntry j k v).head? = some (mkIndent j ++ (renderKeyTxt k ++ t)) ∧
      (t = [':'] ∨ ∃ X, t = ':' :: ' ' :: X) := by
  cases v with
  | str s =>
      by_cases hbs : blockStyleB s.data = true
      · refine ⟨lit ": " ++ blockHeaderTxt s, ?_, Or.inr ⟨blockHeaderTxt s, rfl⟩⟩
        rw [renderEntry]
        simp only [hbs, if_pos, List.head?_cons]
        rw [List.append_assoc, List.append_assoc]
      · refine ⟨lit ": " ++ inlineStrTxt s, ?_, Or.inr ⟨inlineStrTxt s, rfl⟩⟩
        rw [renderEntry]
        simp only [blockStyleB_false_of_not _ hbs, Bool.false_eq_true, if_false,
          List.head?_cons]
        rw [List.append_assoc, List.append_assoc]
  | int n =>
      refine ⟨lit ": " ++ atomTxt (.int n), ?_, Or.inr ⟨atomTxt (.int n), rfl⟩⟩
      show some (mkIndent j ++ renderKeyTxt k ++ lit ": " ++ atomTxt (.int n)) = _
      rw [List.append_assoc, List.append_assoc]
  | bool b =>
      refine ⟨lit ": " ++ atomTxt (.bool b), ?_, Or.inr ⟨atomTxt (.bool b), rfl⟩⟩
      show some (mkIndent j ++ renderKeyTxt k ++ lit ": " ++ atomTxt (.bool b)) = _
      rw [List.append_assoc, List.append_assoc]
  | null =>
      refine ⟨lit ": " ++ atomTxt .null, ?_, Or.inr ⟨atomTxt .null, rfl⟩⟩
      show some (mkIndent j ++ renderKeyTxt k ++ lit ": " ++ atomTxt .null) = _
      rw [List.append_assoc, List.append_assoc]
  | map es =>
      cases es with
      | nil =>
          refine ⟨lit ": \x7b\x7d", ?_, Or.inr ⟨lit "\x7b\x7d", rfl⟩⟩
          show some (mkIndent j ++ renderKeyTxt k ++ lit ": \x7b\x7d") = _
          rw [List.append_assoc]
      | cons e es2 =>
          refine ⟨[':'], ?_, Or.inl rfl⟩
          show some (mkIndent j ++ renderKeyTxt k ++ [':']) = _
          rw [List.append_assoc]
  | seq xs =>
      cases xs with
      | nil =>
          refine ⟨lit ": []", ?_, Or.inr ⟨lit "[]", rfl⟩⟩
          show some (mkIndent j ++ renderKeyTxt k ++ lit ": []") = _
          rw [List.append_assoc]
      | cons x xs2 =>
          refine ⟨[':'], ?_, Or.inl rfl⟩
          show some (mkIndent j ++ renderKeyTxt k ++ [':']) = _
          rw [List.append_assoc]

theorem renderEntries_head_facts (j : Nat) (es : List (String × Val)) (hne : es ≠ [])
    (hs : stableFieldsB es = true) :
    ∃ l0, (renderEntries j es).head? = some l0 ∧ indentOf l0 = j ∧
      isDashItem (contentOf l0) = false := by
  cases es with
  | nil => exact absurd rfl hne
  | cons e es2 =>
      have hsk : plainSafeTxt e.1.data = true := by
        rw [stableFieldsB] at hs
        simp only [Bool.and_eq_true] at hs
        exact hs.1.1
      obtain ⟨t, ht, _⟩ := renderEntry_head j e.1 e.2
      rcases plainSafe_parts e.1.data hsk with ⟨c, hc, hcls, _, _, _, _, _⟩
      have hkr : renderKeyTxt e.1 = e.1.data := renderKey_plain e.1 hsk
      rw [hkr] at ht
      have hkne : e.1.data ≠ [] := by
        cases hq : e.1.data with
        | nil => rw [hq] at hc; exact Option.noConfusion hc
        | cons a b => exact List.cons_ne_nil a b
      have hch : (e.1.data ++ t).head? = some c := by
        rw [head_append_ne_nil hkne]
        exact hc
      have hcsp : ∀ hc2, (e.1.data ++ t).head? = some hc2 → (hc2 == ' ') = false := by
        intro hc2 h2
        rw [hch] at h2
        have : hc2 = c := by simpa using h2.symm
        rw [this]
        exact alpha_underscore_cases c ' ' hcls (by decide) (by decide)
      refine ⟨mkIndent j ++ (e.1.data ++ t), ?_, indentOf_mk j _ hcsp, ?_⟩
      · rw [renderEntries]
        cases hq : renderEntry j e.1 e.2 with
        | nil => exact absurd hq (renderEntry_ne_nil j e.1 e.2)
        | cons a t2 =>
            rw [hq] at ht
            have ha : a = mkIndent j ++ (e.1.data ++ t) := by simpa using ht
            rw [List.cons_append, List.head?_cons, ha]
      · rw [contentOf_mk j _ hcsp]
        exact isDashItem_false_head _ c hch
          (beq_false_symm c '-' (alpha_underscore_cases c '-' hcls (by decide) (by decide)))

theorem renderItem_head (j : Nat) (v : Val) :
    ∃ t rest1, renderItem j v = (mkIndent j ++ '-' :: ' ' :: t) :: rest1 := by
  cases v with
  | str s =>
      by_cases hbs : blockStyleB s.data = true
      · refine ⟨blockHeaderTxt s, blockBodyLines (j + 2) s, ?_⟩
        rw [renderItem]
        simp only [hbs, if_pos]
        rw [List.append_assoc]
        rfl
      · refine ⟨inlineStrTxt s, [], ?_⟩
        rw [renderItem]
        simp only [blockStyleB_false_of_not _ hbs, Bool.false_eq_true, if_false]
        rw [List.append_assoc]
        rfl
  | int n =>
      refine ⟨atomTxt (.int n), [], ?_⟩
      show [mkIndent j ++ lit "- " ++ atomTxt (.int n)] = _
      rw [List.append_assoc]
      rfl
  | bool b =>
      refine ⟨atomTxt (.bool b), [], ?_⟩
      show [mkIndent j ++ lit "- " ++ atomTxt (.bool b)] = _
      rw [List.append_assoc]
      rfl
  | null =>
      refine ⟨atomTxt .null, [], ?_⟩
      show [mkIndent j ++ lit "- " ++ atomTxt .null] = _
      rw [List.append_assoc]
      rfl
  | map es =>
      cases es with
      | nil =>
          refine ⟨lit "\x7b\x7d", [], ?_⟩
          show [mkIndent j ++ lit "- \x7b\x7d"] = _
          rfl
      | cons e es2 =>
          have hne := renderEntries_ne_nil (j + 2) (e :: es2) (by simp)
          cases hq : renderEntries (j + 2) (e :: es2) with
          | nil => exact absurd hq hne
          | cons a rest =>
              refine ⟨a.drop (j + 2), rest, ?_⟩
              show dashFirst j (renderEntries (j + 2) (e :: es2)) = _
              rw [hq]
              rfl
  | seq xs =>
      cases xs with
      | nil =>
          refine ⟨lit "[]", [], ?_⟩
          show [mkIndent j ++ lit "- []"] = _
          rfl
      | cons x xs2 =>
          have hne : renderItems (j + 2) (x :: xs2) ≠ [] :=
            renderItems_ne_nil (j + 2) (x :: xs2) (by simp)
          cases hq : renderItems (j + 2) (x :: xs2) with
          | nil => exact absurd hq hne
          | cons a rest =>
              refine ⟨a.drop (j + 2), rest, ?_⟩
              show dashFirst j (renderItems (j + 2) (x :: xs2)) = _
              rw [hq]
              rfl

theorem isDashItem_dash (t : List Char) : isDashItem ('-' :: ' ' :: t) = true := by
  show startsList (lit "- ") ('-' :: ' ' :: t) = true
  have hl : lit "- " = '-' :: [' '] := rfl
  rw [hl]
  unfold startsList
  unfold startsList
  simp [startsList]

theorem renderItems_head_facts (j : Nat) (xs : List Val) (hne : xs ≠ []) :
    ∃ l0, (renderItems j xs).head? = some l0 ∧ indentOf l0 = j ∧
      isDashItem (contentOf l0) = true := by
  cases xs with
  | nil => exact absurd rfl hne
  | cons x xs2 =>
      obtain ⟨t, rest1, hitem⟩ := renderItem_head j x
      have hcsp : ∀ hc2, ('-' :: ' ' :: t).head? = some hc2 → (hc2 == ' ') = false := by
        intro hc2 h2
        have : hc2 = '-' := by simpa using h2.symm
        rw [this]
        decide
      refine ⟨mkIndent j ++ '-' :: ' ' :: t, ?_, indentOf_mk j _ hcsp, ?_⟩
      · rw [renderItems, hitem, List.cons_append]
        rfl
      · rw [contentOf_mk j _ hcsp]
        exact isDashItem_dash t

/-! Every line rendered from a stable tree is nonempty and newline-free
(so joining with newlines and resplitting recovers the lines, and no
trailing blank line is dropped). -/

theorem fuelForFields_pos (es : List (String × Val)) : 1 ≤ fuelForFields es := by
  cases es with
  | nil => simp [fuelForFields]
  | cons e es2 =>
      rcases e with ⟨k, v⟩
      rw [fuelForFields]
      omega

theorem fuelForItems_pos (xs : List Val) : 1 ≤ fuelForItems xs := by
  cases xs with
  | nil => simp [fuelForItems]
  | cons x xs2 =>
      rw [fuelForItems]
      omega

theorem fuelFor_pos (v : Val) : 1 ≤ fuelFor v := by
  cases v with
  | map es => cases es with
      | nil => simp [fuelFor]
      | cons e es2 => rw [fuelFor]; omega
  | seq xs => cases xs with
      | nil => simp [fuelFor]
      | cons x xs2 => rw [fuelFor]; omega
  | str s => simp [fuelFor]
  | int n => simp [fuelFor]
  | bool b => simp [fuelFor]
  | null => simp [fuelFor]

